import Mathlib

/-!
# Verification of the Goldilocks field and FRI proof compression layer

This file gives a shallow embedding, in Lean 4, of the core computation layer of
the repository: the Goldilocks prime-field arithmetic
(`src/field/goldilocks_field.rs`) and the FRI proof data model with its
compression / decompression transforms (`src/fri/proof.rs`), together with
theorems settling the specification claims about them.

Machine integers (`u64`, `u128`) are embedded as `Nat` with explicit reduction
`% 2^64` at every point where the Rust code performs wrapping arithmetic.
Fallible code (panics, `unwrap`, out-of-bounds indexing) is embedded as
`Option`-returning functions, `none` standing for the aborted computation.
-/

namespace Goldilocks

/-- `GoldilocksField::ORDER = 0xFFFFFFFF00000001 = 2^64 - 2^32 + 1`. -/
def ORDER : Nat := 0xFFFFFFFF00000001

/-- `EPSILON = (1u64 << 32) - 1`. -/
def EPSILON : Nat := 2 ^ 32 - 1

/-- `to_canonical_u64`: one conditional subtraction of the order.
A field element is represented by its `u64` representative (a `Nat < 2^64`). -/
def to_canonical_u64 (x : Nat) : Nat :=
  if x ≥ ORDER then x - ORDER else x

/-- `from_canonical_u64(n) = Self(n)`: no reduction is performed. -/
def from_canonical_u64 (n : Nat) : Nat := n

/-- `reduce128`: split the 128-bit product `x` as `hi * 2^64 + lo` and
`hi = hihi * 2^32 + hilo`, then return `lo + (hilo << 32) - hilo - hihi`
with wrapping 64-bit arithmetic (each `+`/`-` is performed mod `2^64`;
subtraction of `y < 2^64` wraps as addition of `2^64 - y`). -/
def reduce128 (x : Nat) : Nat :=
  let lo := x % 2 ^ 64
  let hi := x / 2 ^ 64
  let hihi := hi / 2 ^ 32
  let hilo := hi % 2 ^ 32
  (((lo + hilo * 2 ^ 32) % 2 ^ 64 + (2 ^ 64 - hilo)) % 2 ^ 64 + (2 ^ 64 - hihi)) % 2 ^ 64

/-- `Mul for GoldilocksField`: `reduce128((self.0 as u128) * (rhs.0 as u128))`. -/
def mul (a b : Nat) : Nat := reduce128 (a * b)

/-- `Add for GoldilocksField`: 64-bit overflowing add, then wrapping subtraction
of `ORDER` exactly when the addition overflowed. -/
def add (a b : Nat) : Nat :=
  if a + b ≥ 2 ^ 64 then ((a + b) % 2 ^ 64 + (2 ^ 64 - ORDER)) % 2 ^ 64
  else (a + b) % 2 ^ 64

/-- `square` is `*self * *self`. -/
def square (a : Nat) : Nat := mul a a

/-- `cube` is `*self * *self * *self` (left associated). -/
def cube (a : Nat) : Nat := mul (mul a a) a

theorem to_canonical_u64_lt (x : Nat) (hx : x < 2 ^ 64) : to_canonical_u64 x < ORDER := by
  unfold to_canonical_u64 ORDER at *
  split <;> omega

theorem to_canonical_u64_mod (x : Nat) (hx : x < 2 ^ 64) :
    to_canonical_u64 x = x % ORDER := by
  unfold to_canonical_u64 ORDER at *
  split <;> omega

/-- `cube_root`: the fixed addition chain of squarings and multiplications from
the source, transcribed line by line. -/
def cube_root (a : Nat) : Nat :=
  let x0 := a
  let x1 := square x0
  let x2 := square x1
  let x3 := mul x2 x0
  let x4 := square x3
  let x5 := square x4
  let x7 := square x5
  let x8 := square x7
  let x9 := square x8
  let x10 := square x9
  let x11 := mul x10 x5
  let x12 := square x11
  let x13 := square x12
  let x14 := square x13
  let x16 := square x14
  let x17 := square x16
  let x18 := square x17
  let x19 := square x18
  let x20 := square x19
  let x21 := mul x20 x11
  let x22 := square x21
  let x23 := square x22
  let x24 := square x23
  let x25 := square x24
  let x26 := square x25
  let x27 := square x26
  let x28 := square x27
  let x29 := square x28
  let x30 := square x29
  let x31 := square x30
  let x32 := square x31
  let x33 := mul x32 x14
  let x34 := mul x33 x3
  let x35 := square x34
  let x36 := mul x35 x34
  let x37 := mul x36 x5
  let x38 := mul x37 x34
  let x39 := mul x38 x37
  let x40 := square x39
  let x41 := square x40
  let x42 := mul x41 x38
  let x43 := square x42
  let x44 := square x43
  let x45 := square x44
  let x46 := square x45
  let x47 := square x46
  let x48 := square x47
  let x49 := square x48
  let x50 := square x49
  let x51 := square x50
  let x52 := square x51
  let x53 := square x52
  let x54 := square x53
  let x55 := square x54
  let x56 := square x55
  let x57 := square x56
  let x58 := square x57
  let x59 := square x58
  let x60 := square x59
  let x61 := square x60
  let x62 := square x61
  let x63 := square x62
  let x64 := square x63
  let x65 := square x64
  let x66 := square x65
  let x67 := square x66
  let x68 := square x67
  let x69 := square x68
  let x70 := square x69
  let x71 := square x70
  let x72 := square x71
  let x73 := square x72
  let x74 := mul x73 x39
  x74

/-- One halving of an extended-gcd accumulator: `b/2` when even, else
`b/2 + p/2 + 1` (that is, `(b + p)/2` computed without 64-bit overflow),
exactly as in the source. -/
def halve_accum (b : Nat) : Nat :=
  if b % 2 = 0 then b / 2 else b / 2 + ORDER / 2 + 1

/-- The inner `while u.is_even()` loop of `try_inverse`: repeatedly halve `u`
and its accumulator `b`.  The loop is embedded with structural fuel; `64`
iterations suffice for any `u < 2^64`, and on the states the algorithm
actually reaches `u` is never `0`, so the fuel is never exhausted. -/
def evens_loop : Nat → Nat → Nat → Nat × Nat
  | 0, u, b => (u, b)
  | fuel + 1, u, b =>
    if u % 2 = 0 then evens_loop fuel (u / 2) (halve_accum b) else (u, b)

/-- Accumulator update `b -= c` of `try_inverse`: 64-bit `overflowing_sub`
followed, on borrow, by a wrapping `overflowing_add` of the order. -/
def sub_accum (b c : Nat) : Nat :=
  if b < c then ((b + 2 ^ 64 - c) % 2 ^ 64 + ORDER) % 2 ^ 64
  else (b + 2 ^ 64 - c) % 2 ^ 64

/-- The four mutable locals `u, v, b, c` of `try_inverse`. -/
structure GcdState where
  u : Nat
  v : Nat
  b : Nat
  c : Nat

/-- One iteration of the outer `while u != 1 && v != 1` loop: make `u` and `v`
odd (halving the accumulators along the way), then subtract the smaller of
`(u, v)` from the larger and update the corresponding accumulator. -/
def iter_step (s : GcdState) : GcdState :=
  let ub := evens_loop 64 s.u s.b
  let vc := evens_loop 64 s.v s.c
  if ub.1 ≥ vc.1 then ⟨ub.1 - vc.1, vc.1, sub_accum ub.2 vc.2, vc.2⟩
  else ⟨ub.1, vc.1 - ub.1, ub.2, sub_accum vc.2 ub.2⟩

/-- The outer loop of `try_inverse`, with structural fuel (the measure
`u + v + 1` strictly decreases across iterations, so this fuel is enough;
`none` on fuel exhaustion is unreachable from the entry states). -/
def inverse_loop : Nat → GcdState → Option Nat
  | 0, _ => none
  | fuel + 1, s =>
    if s.u = 1 ∨ s.v = 1 then some (if s.u = 1 then s.b else s.c)
    else inverse_loop fuel (iter_step s)

/-- `try_inverse`.  The zero test is `is_zero`, i.e. equality with `ZERO`
under the canonical-form `PartialEq` of the source.  The final
`assert_eq!(*self * inverse, Self::ONE)` is embedded as a guard: a failing
assertion (a Rust panic) is modelled as `none`. -/
def try_inverse (x : Nat) : Option Nat :=
  if to_canonical_u64 x = 0 then none
  else
    match inverse_loop (to_canonical_u64 x + ORDER + 1) ⟨to_canonical_u64 x, ORDER, 1, 0⟩ with
    | none => none
    | some inv => if to_canonical_u64 (mul x inv) = 1 then some inv else none

/-- Fast modular exponentiation (square and multiply), fuel-indexed; proof
infrastructure for the primality of the field order. -/
def powMod : Nat → Nat → Nat → Nat → Nat
  | 0, _, _, n => 1 % n
  | fuel + 1, a, e, n =>
    if e = 0 then 1 % n
    else
      let h := powMod fuel a (e / 2) n
      if e % 2 = 0 then h * h % n else h * h % n * a % n

theorem powMod_eq (n : Nat) :
    ∀ fuel a e, e < 2 ^ fuel → powMod fuel a e n = a ^ e % n := by
  intro fuel
  induction fuel with
  | zero =>
    intro a e he
    have : e = 0 := by omega
    subst this
    simp [powMod]
  | succ f ih =>
    intro a e he
    by_cases h0 : e = 0
    · subst h0; simp [powMod]
    · have hrec := ih a (e / 2) (by omega)
      by_cases hp : e % 2 = 0
      · have heq : powMod (f + 1) a e n = powMod f a (e / 2) n * powMod f a (e / 2) n % n := by
          simp [powMod, h0, hp]
        have he2 : e / 2 + e / 2 = e := by omega
        rw [heq, hrec, ← Nat.mul_mod, ← pow_add, he2]
      · have heq : powMod (f + 1) a e n =
            powMod f a (e / 2) n * powMod f a (e / 2) n % n * a % n := by
          simp [powMod, h0, hp]
        have he2 : e / 2 + e / 2 + 1 = e := by omega
        rw [heq, hrec, ← Nat.mul_mod, Nat.mod_mul_mod, ← pow_add, ← pow_succ, he2]

theorem zmod_pow_eq_one_iff (n a e : Nat) (hn : 1 < n) :
    ((a : ZMod n) ^ e = 1) ↔ a ^ e % n = 1 := by
  haveI : NeZero n := ⟨by omega⟩
  haveI : Fact (1 < n) := ⟨hn⟩
  rw [← Nat.cast_pow]
  constructor
  · intro h
    have hv := congrArg ZMod.val h
    rwa [ZMod.val_natCast, ZMod.val_one] at hv
  · intro h
    rw [← ZMod.natCast_mod, h, Nat.cast_one]

theorem order_sub_one_factorization :
    ORDER - 1 = 2 ^ 32 * (3 * (5 * (17 * (257 * 65537)))) := by decide

theorem order_sub_one_prime_divisors (q : Nat) (hq : Nat.Prime q) (hdvd : q ∣ ORDER - 1) :
    q = 2 ∨ q = 3 ∨ q = 5 ∨ q = 17 ∨ q = 257 ∨ q = 65537 := by
  rw [order_sub_one_factorization] at hdvd
  rcases (Nat.Prime.dvd_mul hq).1 hdvd with h | h
  · exact Or.inl ((Nat.prime_dvd_prime_iff_eq hq (by norm_num)).1 (hq.dvd_of_dvd_pow h))
  rcases (Nat.Prime.dvd_mul hq).1 h with h | h
  · exact Or.inr (Or.inl ((Nat.prime_dvd_prime_iff_eq hq (by norm_num)).1 h))
  rcases (Nat.Prime.dvd_mul hq).1 h with h | h
  · exact Or.inr (Or.inr (Or.inl ((Nat.prime_dvd_prime_iff_eq hq (by norm_num)).1 h)))
  rcases (Nat.Prime.dvd_mul hq).1 h with h | h
  · exact Or.inr (Or.inr (Or.inr (Or.inl ((Nat.prime_dvd_prime_iff_eq hq (by norm_num)).1 h))))
  rcases (Nat.Prime.dvd_mul hq).1 h with h | h
  · exact Or.inr (Or.inr (Or.inr (Or.inr (Or.inl
      ((Nat.prime_dvd_prime_iff_eq hq (by norm_num)).1 h)))))
  · exact Or.inr (Or.inr (Or.inr (Or.inr (Or.inr
      ((Nat.prime_dvd_prime_iff_eq hq (by norm_num)).1 h)))))

set_option maxRecDepth 10000 in
theorem pow7_check_one : powMod 64 7 (ORDER - 1) ORDER = 1 := by decide

set_option maxRecDepth 10000 in
theorem pow7_check_divs :
    powMod 64 7 ((ORDER - 1) / 2) ORDER ≠ 1 ∧
    powMod 64 7 ((ORDER - 1) / 3) ORDER ≠ 1 ∧
    powMod 64 7 ((ORDER - 1) / 5) ORDER ≠ 1 ∧
    powMod 64 7 ((ORDER - 1) / 17) ORDER ≠ 1 ∧
    powMod 64 7 ((ORDER - 1) / 257) ORDER ≠ 1 ∧
    powMod 64 7 ((ORDER - 1) / 65537) ORDER ≠ 1 := by
  refine ⟨?_, ?_, ?_, ?_, ?_, ?_⟩ <;> decide

theorem cast_seven : ((7 : Nat) : ZMod ORDER) = (7 : ZMod ORDER) := Nat.cast_ofNat

/-- The field order `2^64 - 2^32 + 1` is prime (Lucas certificate with
primitive root `7`, over the factorization `p - 1 = 2^32·3·5·17·257·65537`). -/
theorem ORDER_prime : Nat.Prime ORDER := by
  have h1lt : (1 : Nat) < ORDER := by decide
  have hpe : ∀ e, e < 2 ^ 64 → powMod 64 7 e ORDER = 7 ^ e % ORDER :=
    fun e he => powMod_eq ORDER 64 7 e he
  have h7 : ((7 : ZMod ORDER)) ^ (ORDER - 1) = 1 := by
    rw [← cast_seven, zmod_pow_eq_one_iff _ _ _ h1lt, ← hpe (ORDER - 1) (by decide)]
    exact pow7_check_one
  refine lucas_primality ORDER (7 : ZMod ORDER) h7 ?_
  intro q hq hdvd
  have hne : ∀ d, d < 2 ^ 64 → powMod 64 7 d ORDER ≠ 1 → (7 : ZMod ORDER) ^ d ≠ 1 := by
    intro d hd hne1 hcontra
    rw [← cast_seven, zmod_pow_eq_one_iff _ _ _ h1lt, ← hpe d hd] at hcontra
    exact hne1 hcontra
  obtain ⟨hd2, hd3, hd5, hd17, hd257, hd65537⟩ := pow7_check_divs
  rcases order_sub_one_prime_divisors q hq hdvd with rfl | rfl | rfl | rfl | rfl | rfl
  · exact hne _ (by decide) hd2
  · exact hne _ (by decide) hd3
  · exact hne _ (by decide) hd5
  · exact hne _ (by decide) hd17
  · exact hne _ (by decide) hd257
  · exact hne _ (by decide) hd65537

/-- A 128-bit value congruent to `1` modulo the order reduces, through the
wrapping formula of `reduce128`, to exactly `1` or `ORDER + 1`: on such inputs
no net wraparound ever occurs. -/
theorem reduce128_one_congr (k : Nat) (hk : k < 2 ^ 64) :
    reduce128 (1 + k * ORDER) = 1 ∨ reduce128 (1 + k * ORDER) = ORDER + 1 := by
  by_cases hk0 : k = 0
  · subst hk0; left
    unfold reduce128 ORDER
    simp only []
    omega
  obtain ⟨m, r, hm, hr, rfl⟩ : ∃ m r, m < 2 ^ 32 ∧ r < 2 ^ 32 ∧ k = m * 2 ^ 32 + r :=
    ⟨k / 2 ^ 32, k % 2 ^ 32, by omega, by omega, by omega⟩
  unfold reduce128 ORDER
  simp only []
  rcases Nat.lt_trichotomy r m with hlt | heq | hgt
  · have hx : 1 + (m * 2 ^ 32 + r) * 0xFFFFFFFF00000001 =
        ((m - 1) * 2 ^ 32 + (2 ^ 32 - m + r)) * 2 ^ 64 + ((m - r) * 2 ^ 32 + r + 1) := by
      omega
    have hdiv : (1 + (m * 2 ^ 32 + r) * 0xFFFFFFFF00000001) / 2 ^ 64 =
        (m - 1) * 2 ^ 32 + (2 ^ 32 - m + r) := by omega
    have hmod : (1 + (m * 2 ^ 32 + r) * 0xFFFFFFFF00000001) % 2 ^ 64 =
        (m - r) * 2 ^ 32 + r + 1 := by omega
    rw [hdiv, hmod]
    have hdiv2 : ((m - 1) * 2 ^ 32 + (2 ^ 32 - m + r)) / 2 ^ 32 = m - 1 := by omega
    have hmod2 : ((m - 1) * 2 ^ 32 + (2 ^ 32 - m + r)) % 2 ^ 32 = 2 ^ 32 - m + r := by omega
    rw [hdiv2, hmod2]
    right; omega
  · subst heq
    have hx : 1 + (r * 2 ^ 32 + r) * 0xFFFFFFFF00000001 =
        (r * 2 ^ 32) * 2 ^ 64 + (r + 1) := by omega
    have hdiv : (1 + (r * 2 ^ 32 + r) * 0xFFFFFFFF00000001) / 2 ^ 64 = r * 2 ^ 32 := by omega
    have hmod : (1 + (r * 2 ^ 32 + r) * 0xFFFFFFFF00000001) % 2 ^ 64 = r + 1 := by omega
    rw [hdiv, hmod]
    have hdiv2 : (r * 2 ^ 32) / 2 ^ 32 = r := by omega
    have hmod2 : (r * 2 ^ 32) % 2 ^ 32 = 0 := by omega
    rw [hdiv2, hmod2]
    left; omega
  · by_cases hedge : r = 2 ^ 32 - 1 ∧ m = 2 ^ 32 - 2
    · obtain ⟨h1, h2⟩ := hedge; subst h1; subst h2; left; omega
    · have ht : (r - m) * 2 ^ 32 ≥ r + 2 := by
        rcases Nat.lt_or_ge (r - m) 2 with h | h
        · have hrm : r - m = 1 := by omega
          have hrb : r ≤ 2 ^ 32 - 2 := by
            by_contra hc
            exact hedge ⟨by omega, by omega⟩
          omega
        · have := Nat.mul_le_mul_right (2 ^ 32) h
          omega
      have hx : 1 + (m * 2 ^ 32 + r) * 0xFFFFFFFF00000001 =
          (m * 2 ^ 32 + (r - m - 1)) * 2 ^ 64 + (2 ^ 64 + r + 1 - (r - m) * 2 ^ 32) := by
        omega
      have hdiv : (1 + (m * 2 ^ 32 + r) * 0xFFFFFFFF00000001) / 2 ^ 64 =
          m * 2 ^ 32 + (r - m - 1) := by omega
      have hmod : (1 + (m * 2 ^ 32 + r) * 0xFFFFFFFF00000001) % 2 ^ 64 =
          2 ^ 64 + r + 1 - (r - m) * 2 ^ 32 := by omega
      rw [hdiv, hmod]
      have hdiv2 : (m * 2 ^ 32 + (r - m - 1)) / 2 ^ 32 = m := by omega
      have hmod2 : (m * 2 ^ 32 + (r - m - 1)) % 2 ^ 32 = r - m - 1 := by omega
      rw [hdiv2, hmod2]
      right; omega

theorem halve_accum_spec (b : Nat) (hb : b < ORDER) :
    halve_accum b < ORDER ∧ 2 * halve_accum b % ORDER = b % ORDER := by
  unfold halve_accum ORDER at *
  split <;> constructor <;> omega

theorem cancel_two_mod (x y : Nat) (h : 2 * x % ORDER = 2 * y % ORDER) :
    x % ORDER = y % ORDER := by
  have h2 : Nat.gcd ORDER 2 = 1 := by decide
  exact Nat.ModEq.cancel_left_of_coprime h2 h

/-- The halving loop transports the accumulator congruence `b·a ≡ u (mod p)`
(and its bound) to its final state, and never increases `u`. -/
theorem evens_loop_mod (a : Nat) :
    ∀ fuel u b, b < ORDER → b * a % ORDER = u % ORDER →
      (evens_loop fuel u b).2 < ORDER ∧
      (evens_loop fuel u b).2 * a % ORDER = (evens_loop fuel u b).1 % ORDER ∧
      (evens_loop fuel u b).1 ∣ u ∧ (evens_loop fuel u b).1 ≤ u := by
  intro fuel
  induction fuel with
  | zero => intro u b hb hba; exact ⟨hb, hba, dvd_refl u, le_refl u⟩
  | succ f ih =>
    intro u b hb hba
    by_cases he : u % 2 = 0
    · have step : evens_loop (f + 1) u b = evens_loop f (u / 2) (halve_accum b) := by
        simp [evens_loop, he]
      obtain ⟨hblt, hbmod⟩ := halve_accum_spec b hb
      have h3 : halve_accum b * a % ORDER = u / 2 % ORDER := by
        apply cancel_two_mod
        have e1 : 2 * (halve_accum b * a) = 2 * halve_accum b * a := by ring
        have e2 : 2 * (u / 2) = u := by omega
        rw [e1, e2]
        calc 2 * halve_accum b * a % ORDER
            = 2 * halve_accum b % ORDER * (a % ORDER) % ORDER := by rw [Nat.mul_mod]
          _ = b % ORDER * (a % ORDER) % ORDER := by rw [hbmod]
          _ = b * a % ORDER := by rw [← Nat.mul_mod]
          _ = u % ORDER := hba
      obtain ⟨r1, r2, r3, r4⟩ := ih (u / 2) (halve_accum b) hblt h3
      refine ⟨by rwa [step], by rwa [step], ?_, ?_⟩
      · rw [step]
        exact dvd_trans r3 ⟨2, by omega⟩
      · rw [step]
        omega
    · have step : evens_loop (f + 1) u b = (u, b) := by simp [evens_loop, he]
      rw [step]
      exact ⟨hb, hba, dvd_refl u, le_refl u⟩

/-- With enough fuel (and a positive start) the halving loop ends on an odd,
positive value. -/
theorem evens_loop_odd :
    ∀ fuel u b, 0 < u → u < 2 ^ fuel →
      (evens_loop fuel u b).1 % 2 = 1 ∧ 0 < (evens_loop fuel u b).1 := by
  intro fuel
  induction fuel with
  | zero => intro u b hu hub; omega
  | succ f ih =>
    intro u b hu hub
    by_cases he : u % 2 = 0
    · have step : evens_loop (f + 1) u b = evens_loop f (u / 2) (halve_accum b) := by
        simp [evens_loop, he]
      rw [step]
      exact ih (u / 2) (halve_accum b) (by omega) (by omega)
    · have step : evens_loop (f + 1) u b = (u, b) := by simp [evens_loop, he]
      rw [step]
      exact ⟨by omega, hu⟩

theorem sub_accum_spec (b c : Nat) (hb : b < ORDER) (hc : c < ORDER) :
    sub_accum b c < ORDER ∧ (sub_accum b c + c) % ORDER = b % ORDER := by
  unfold sub_accum ORDER at *
  split <;> constructor <;> omega

/-- The part of the loop invariant visible to the specification: the
accumulators stay below the order and satisfy `b·a ≡ u (mod p)` and
`c·a ≡ v (mod p)`, `a` being the canonical input being inverted. -/
def AccumInv (a : Nat) (s : GcdState) : Prop :=
  s.u < 2 ^ 64 ∧ s.v < 2 ^ 64 ∧ s.b < ORDER ∧ s.c < ORDER ∧
  s.b * a % ORDER = s.u % ORDER ∧ s.c * a % ORDER = s.v % ORDER

/-- From `(x + c)·a ≡ b·a ≡ u (mod p)` and `c·a ≡ v (mod p)` with `v ≤ u`,
conclude `x·a ≡ u - v (mod p)`. -/
theorem sub_transport (a u v x c : Nat) (hvu : v ≤ u)
    (hx : (x + c) * a % ORDER = u % ORDER) (hc : c * a % ORDER = v % ORDER) :
    x * a % ORDER = (u - v) % ORDER := by
  have h1 : x * a + c * a = (x + c) * a := by ring
  have h2 : (x * a + c * a) % ORDER = u % ORDER := by rw [h1]; exact hx
  have h3 : (x * a + v) % ORDER = u % ORDER := by
    calc (x * a + v) % ORDER = (x * a % ORDER + v % ORDER) % ORDER := by
          rw [Nat.add_mod]
      _ = (x * a % ORDER + c * a % ORDER) % ORDER := by rw [hc]
      _ = (x * a + c * a) % ORDER := by rw [← Nat.add_mod]
      _ = u % ORDER := h2
  have h4 : (x * a + v) % ORDER = (u - v + v) % ORDER := by
    rw [h3]; congr 1; omega
  exact Nat.ModEq.add_right_cancel' v h4

/-- Transport a sum congruence through multiplication by `a`. -/
theorem mul_transport (a x y z : Nat) (hsum : (x + y) % ORDER = z % ORDER)
    (hz : z * a % ORDER = y2 % ORDER) : (x + y) * a % ORDER = y2 % ORDER := by
  calc (x + y) * a % ORDER
      = (x + y) % ORDER * (a % ORDER) % ORDER := by rw [Nat.mul_mod]
    _ = z % ORDER * (a % ORDER) % ORDER := by rw [hsum]
    _ = z * a % ORDER := by rw [← Nat.mul_mod]
    _ = y2 % ORDER := hz

/-- One outer iteration preserves the specification-level invariant. -/
theorem iter_step_accum (a : Nat) (s : GcdState) (h : AccumInv a s) :
    AccumInv a (iter_step s) := by
  obtain ⟨hu, hv, hb, hc, hba, hca⟩ := h
  obtain ⟨hub2, hubm, hubd, huble⟩ := evens_loop_mod a 64 s.u s.b hb hba
  obtain ⟨hvc2, hvcm, hvcd, hvcle⟩ := evens_loop_mod a 64 s.v s.c hc hca
  simp only [iter_step]
  set ub := evens_loop 64 s.u s.b
  set vc := evens_loop 64 s.v s.c
  by_cases hge : ub.1 ≥ vc.1
  · rw [if_pos hge]
    obtain ⟨hs1, hs2⟩ := sub_accum_spec ub.2 vc.2 hub2 hvc2
    exact ⟨show ub.1 - vc.1 < 2 ^ 64 by omega, show vc.1 < 2 ^ 64 by omega, hs1, hvc2,
      sub_transport a ub.1 vc.1 _ vc.2 hge (mul_transport a _ vc.2 ub.2 hs2 hubm) hvcm,
      hvcm⟩
  · rw [if_neg hge]
    push_neg at hge
    obtain ⟨hs1, hs2⟩ := sub_accum_spec vc.2 ub.2 hvc2 hub2
    exact ⟨show ub.1 < 2 ^ 64 by omega, show vc.1 - ub.1 < 2 ^ 64 by omega, hub2, hs1, hubm,
      sub_transport a vc.1 ub.1 _ ub.2 (le_of_lt hge)
        (mul_transport a _ ub.2 vc.2 hs2 hvcm) hubm⟩

/-- The outer extended-gcd loop, run with fuel at least `u + v + 1` from a
state satisfying the full invariant, returns the modular inverse of `a`. -/
theorem inverse_loop_some (a : Nat) :
    ∀ fuel u v b c, 0 < u → 0 < v → u < 2 ^ 64 → v < 2 ^ 64 → b < ORDER → c < ORDER →
      b * a % ORDER = u % ORDER → c * a % ORDER = v % ORDER →
      Nat.gcd u v = 1 → u + v + 1 ≤ fuel →
      ∃ r, inverse_loop fuel ⟨u, v, b, c⟩ = some r ∧ r < ORDER ∧
        r * a % ORDER = 1 % ORDER := by
  intro fuel
  induction fuel with
  | zero => intro u v b c _ _ _ _ _ _ _ _ _ hf; omega
  | succ f ih =>
    intro u v b c hu hv hub hvb hbb hcb hba hca hgcd hf
    by_cases hu1 : u = 1
    · refine ⟨b, ?_, hbb, by rw [hba, hu1]⟩
      simp only [inverse_loop]
      rw [if_pos (Or.inl hu1), if_pos hu1]
    by_cases hv1 : v = 1
    · refine ⟨c, ?_, hcb, by rw [hca, hv1]⟩
      simp only [inverse_loop]
      rw [if_pos (Or.inr hv1), if_neg hu1]
    have hstep : inverse_loop (f + 1) (⟨u, v, b, c⟩ : GcdState) =
        inverse_loop f (iter_step ⟨u, v, b, c⟩) := by
      simp only [inverse_loop]
      rw [if_neg (by simp only [not_or]; exact ⟨hu1, hv1⟩)]
    rw [hstep]
    obtain ⟨hubm2, hubmm, hubd, huble⟩ := evens_loop_mod a 64 u b hbb hba
    obtain ⟨hvcm2, hvcmm, hvcd, hvcle⟩ := evens_loop_mod a 64 v c hcb hca
    obtain ⟨hubo, hubp⟩ := evens_loop_odd 64 u b hu hub
    obtain ⟨hvco, hvcp⟩ := evens_loop_odd 64 v c hv hvb
    rcases hub2 : evens_loop 64 u b with ⟨u2, b2⟩
    rcases hvc2 : evens_loop 64 v c with ⟨v2, c2⟩
    rw [hub2] at hubm2 hubmm hubd huble hubo hubp
    rw [hvc2] at hvcm2 hvcmm hvcd hvcle hvco hvcp
    simp only [] at hubm2 hubmm hubd huble hubo hubp hvcm2 hvcmm hvcd hvcle hvco hvcp
    have hg2 : Nat.gcd u2 v2 = 1 := by
      have h1 : Nat.gcd u2 v2 ∣ Nat.gcd u v :=
        Nat.dvd_gcd ((Nat.gcd_dvd_left _ _).trans hubd) ((Nat.gcd_dvd_right _ _).trans hvcd)
      rw [hgcd] at h1
      exact Nat.dvd_one.mp h1
    by_cases hge : u2 ≥ v2
    · have hstate : iter_step ⟨u, v, b, c⟩ = ⟨u2 - v2, v2, sub_accum b2 c2, c2⟩ := by
        simp only [iter_step, hub2, hvc2]
        rw [if_pos hge]
      rw [hstate]
      obtain ⟨hs1, hs2⟩ := sub_accum_spec b2 c2 hubm2 hvcm2
      have hnewb : sub_accum b2 c2 * a % ORDER = (u2 - v2) % ORDER :=
        sub_transport a u2 v2 _ c2 hge (mul_transport a _ c2 b2 hs2 hubmm) hvcmm
      by_cases heq2 : u2 = v2
      · have hone : v2 = 1 := by
          rw [heq2] at hg2; rwa [Nat.gcd_self] at hg2
        obtain ⟨f2, rfl⟩ : ∃ f2, f = f2 + 1 := ⟨f - 1, by omega⟩
        refine ⟨c2, ?_, hvcm2, by rw [hvcmm, hone]⟩
        simp only [inverse_loop]
        rw [if_pos (Or.inr hone), if_neg (show ¬u2 - v2 = 1 by omega)]
      · exact ih (u2 - v2) v2 (sub_accum b2 c2) c2 (by omega) hvcp (by omega) (by omega)
          hs1 hvcm2 hnewb hvcmm
          (by rw [Nat.gcd_sub_self_left (by omega : v2 ≤ u2)]; exact hg2) (by omega)
    · push_neg at hge
      have hstate : iter_step ⟨u, v, b, c⟩ = ⟨u2, v2 - u2, b2, sub_accum c2 b2⟩ := by
        simp only [iter_step, hub2, hvc2]
        rw [if_neg (by omega)]
      rw [hstate]
      obtain ⟨hs1, hs2⟩ := sub_accum_spec c2 b2 hvcm2 hubm2
      have hnewc : sub_accum c2 b2 * a % ORDER = (v2 - u2) % ORDER :=
        sub_transport a v2 u2 _ b2 (le_of_lt hge) (mul_transport a _ b2 c2 hs2 hvcmm) hubmm
      exact ih u2 (v2 - u2) b2 (sub_accum c2 b2) hubp (by omega) (by omega) (by omega)
        hubm2 hs1 hubmm hnewc
        (by rw [Nat.gcd_sub_self_right (le_of_lt hge)]; exact hg2) (by omega)

/-- Products of representatives that are congruent to `1` modulo the order
canonicalize, after `reduce128`, to exactly `1`: the source's internal
assertion `result * input == ONE` can never fire. -/
theorem canonical_mul_one (x inv : Nat) (hx : x < 2 ^ 64) (hx0 : 0 < x)
    (hinv : inv < ORDER) (h : x * inv % ORDER = 1 % ORDER) :
    to_canonical_u64 (mul x inv) = 1 := by
  have h1 : (1 : Nat) % ORDER = 1 := by decide
  rw [h1] at h
  have hk : x * inv = 1 + x * inv / ORDER * ORDER := by
    have h2 := Nat.div_add_mod (x * inv) ORDER
    unfold ORDER at h2 h ⊢
    omega
  have hle : x * inv ≤ (2 ^ 64 - 1) * (ORDER - 1) :=
    Nat.mul_le_mul (by omega) (by omega)
  have hklt : x * inv / ORDER < 2 ^ 64 := by
    unfold ORDER at *
    omega
  have := reduce128_one_congr (x * inv / ORDER) hklt
  unfold mul
  rw [hk]
  rcases this with h2 | h2 <;> rw [h2] <;> decide

/-- C9 (amended): `try_inverse` returns no value exactly when its input is
congruent to `0` modulo `p`; on every nonzero input it returns an inverse `b`
with `a · b == ONE` (so the internal assertion never fires — products congruent
to `1` always canonicalize to `1` under `reduce128`); and the accumulators of
the binary extended-gcd satisfy the invariants `b·x ≡ u (mod p)` and
`c·x ≡ v (mod p)` (`x` the canonical input): they hold at the initial state and
are preserved by every outer iteration. -/
theorem try_inverse_spec (x : Nat) (hx : x < 2 ^ 64) :
    (try_inverse x = none ↔ x % ORDER = 0) ∧
    (x % ORDER ≠ 0 → ∃ inv, try_inverse x = some inv ∧
      to_canonical_u64 (mul x inv) = 1) ∧
    (∀ s, AccumInv (to_canonical_u64 x) s → AccumInv (to_canonical_u64 x) (iter_step s)) ∧
    AccumInv (to_canonical_u64 x) ⟨to_canonical_u64 x, ORDER, 1, 0⟩ := by
  have hcanon : to_canonical_u64 x = x % ORDER := to_canonical_u64_mod x hx
  have hex : x % ORDER ≠ 0 → ∃ inv, try_inverse x = some inv ∧
      to_canonical_u64 (mul x inv) = 1 := by
    intro hnz
    have ha0 : to_canonical_u64 x ≠ 0 := by rw [hcanon]; exact hnz
    set a := to_canonical_u64 x with hadef
    have halt : a < ORDER := to_canonical_u64_lt x hx
    have hapos : 0 < a := Nat.pos_of_ne_zero ha0
    have hgcd : Nat.gcd a ORDER = 1 := by
      have hnd : ¬ORDER ∣ a := Nat.not_dvd_of_pos_of_lt hapos halt
      exact Nat.Coprime.symm ((Nat.Prime.coprime_iff_not_dvd ORDER_prime).2 hnd)
    obtain ⟨r, hloop, hrlt, hrmod⟩ := inverse_loop_some a (a + ORDER + 1) a ORDER 1 0
      hapos (by decide) (lt_trans halt (by decide)) (by decide) (by decide) (by decide)
      (by rw [one_mul]) (by rw [Nat.zero_mul, Nat.zero_mod, Nat.mod_self]) hgcd (le_refl _)
    have hxpos : 0 < x := by
      rcases Nat.eq_zero_or_pos x with rfl | h
      · exact absurd (by decide : (0 : Nat) % ORDER = 0) hnz
      · exact h
    have hmodx : x * r % ORDER = 1 % ORDER := by
      calc x * r % ORDER = x % ORDER * (r % ORDER) % ORDER := by rw [Nat.mul_mod]
        _ = a * (r % ORDER) % ORDER := by rw [← hcanon]
        _ = a % ORDER * (r % ORDER) % ORDER := by rw [Nat.mod_eq_of_lt halt]
        _ = a * r % ORDER := by rw [← Nat.mul_mod]
        _ = r * a % ORDER := by rw [Nat.mul_comm]
        _ = 1 % ORDER := hrmod
    have hassert := canonical_mul_one x r hx hxpos hrlt hmodx
    refine ⟨r, ?_, hassert⟩
    unfold try_inverse
    rw [if_neg ha0, hloop]
    simp only []
    rw [if_pos hassert]
  have hinit : AccumInv (to_canonical_u64 x) ⟨to_canonical_u64 x, ORDER, 1, 0⟩ := by
    unfold AccumInv
    refine ⟨?_, show ORDER < 2 ^ 64 by decide, show (1 : Nat) < ORDER by decide,
      show (0 : Nat) < ORDER by decide, ?_, ?_⟩
    · exact lt_trans (to_canonical_u64_lt x hx) (by decide)
    · show 1 * to_canonical_u64 x % ORDER = to_canonical_u64 x % ORDER
      rw [one_mul]
    · show 0 * to_canonical_u64 x % ORDER = ORDER % ORDER
      rw [Nat.zero_mul, Nat.zero_mod, Nat.mod_self]
  refine ⟨⟨?_, ?_⟩, hex, fun s hs => iter_step_accum _ s hs, hinit⟩
  · intro hnone
    by_contra hnz
    obtain ⟨inv, hsome, _⟩ := hex hnz
    rw [hsome] at hnone
    exact Option.noConfusion hnone
  · intro h0
    unfold try_inverse
    rw [if_pos (by rw [hcanon]; exact h0)]

/-- Witness for `try_inverse_spec` at `x = 3`. -/
theorem try_inverse_spec_witness :
    ∃ inv, try_inverse 3 = some inv ∧ to_canonical_u64 (mul 3 inv) = 1 :=
  (try_inverse_spec 3 (by decide)).2.1 (by decide)

set_option maxRecDepth 100000 in
/-- C9 (counterexample to the claim as stated): the claim attributes to the
accumulators the invariants `u·x ≡ b (mod p)` and `v·x ≡ −c (mod p)`.  With
`x` read as the input, `u·x ≡ b` already fails at the initial accumulator
state for input `3` (`u = 3`, `b = 1`, and `3·3 ≢ 1`).  With `x` read as the
returned inverse (here `try_inverse 3 = some 12297829379609722881`),
`v·x ≡ −c` fails at the state reached after the first outer iteration. -/
theorem try_inverse_invariant_as_stated_false :
    to_canonical_u64 3 * 3 % ORDER ≠ 1 % ORDER ∧
    try_inverse 3 = some 12297829379609722881 ∧
    ((iter_step ⟨to_canonical_u64 3, ORDER, 1, 0⟩).v * 12297829379609722881 +
      (iter_step ⟨to_canonical_u64 3, ORDER, 1, 0⟩).c) % ORDER ≠ 0 := by
  refine ⟨by decide, by decide, by decide⟩

end Goldilocks

/-- C2: the claim asserts that `a * b` (via `reduce128` with wrapping 64-bit
arithmetic) is always congruent to `a·b` modulo `p`.  It is not: at
`a = b = 2^63` the intermediate value `lo + (hilo<<32) - hilo - hihi`
underflows, the wraparound adds `2^64 ≡ 2^32 - 1 (mod p)`, and the result
`2^64 - 2^30` is incongruent to `2^126 mod p = p - 2^30`. -/
theorem mul_incongruent_at_2_pow_63 :
    Goldilocks.mul (2 ^ 63) (2 ^ 63) % Goldilocks.ORDER ≠
      (2 ^ 63 * 2 ^ 63) % Goldilocks.ORDER := by
  decide

/-- C5 (counterexample): field addition of the representatives
`a = b = 2^64 - 1` is incongruent to `a + b` modulo `p`: the sum overflows and
the conditional wrapping subtraction of `ORDER` itself fails to wrap, leaving
the result short by `2^64 ≡ 2^32 - 1 (mod p)`. -/
theorem add_incongruent_at_max :
    Goldilocks.add (2 ^ 64 - 1) (2 ^ 64 - 1) % Goldilocks.ORDER ≠
      ((2 ^ 64 - 1) + (2 ^ 64 - 1)) % Goldilocks.ORDER := by
  decide

/-- C5 (amended): for 64-bit representatives `a, b` whose true sum is below
`2^65 - 2^32 + 1` (in particular whenever at least one operand is canonical),
the overflow-then-subtract addition returns a representative congruent to
`a + b` modulo `p`. -/
theorem add_congruent_of_sum_lt (a b : Nat) (ha : a < 2 ^ 64) (hb : b < 2 ^ 64)
    (hs : a + b < 2 ^ 65 - 2 ^ 32 + 1) :
    Goldilocks.add a b % Goldilocks.ORDER = (a + b) % Goldilocks.ORDER := by
  unfold Goldilocks.add Goldilocks.ORDER
  split <;> omega

/-- Witness for `add_congruent_of_sum_lt` at `a = ORDER - 1`, `b = 2`. -/
theorem add_congruent_of_sum_lt_witness :
    Goldilocks.add (Goldilocks.ORDER - 1) 2 % Goldilocks.ORDER =
      ((Goldilocks.ORDER - 1) + 2) % Goldilocks.ORDER :=
  add_congruent_of_sum_lt (Goldilocks.ORDER - 1) 2 (by decide) (by decide) (by decide)

/-- C10: for every 64-bit `n`, `to_canonical_u64 (from_canonical_u64 n)` equals
`n mod p` and is strictly below `p` (one conditional subtraction suffices since
`n < 2^64 < 2p`); the round trip is the identity exactly when `n < p`; and
concretely `from_canonical_u64 0xFFFFFFFFFFFFFFFF` canonicalizes to
`0xFFFFFFFE`. -/
theorem to_canonical_from_canonical_round_trip :
    (∀ n : Nat, n < 2 ^ 64 →
      Goldilocks.to_canonical_u64 (Goldilocks.from_canonical_u64 n) = n % Goldilocks.ORDER ∧
      Goldilocks.to_canonical_u64 (Goldilocks.from_canonical_u64 n) < Goldilocks.ORDER ∧
      (Goldilocks.to_canonical_u64 (Goldilocks.from_canonical_u64 n) = n ↔
        n < Goldilocks.ORDER)) ∧
    Goldilocks.to_canonical_u64 (Goldilocks.from_canonical_u64 0xFFFFFFFFFFFFFFFF) =
      0xFFFFFFFE := by
  constructor
  · intro n hn
    unfold Goldilocks.to_canonical_u64 Goldilocks.from_canonical_u64 Goldilocks.ORDER
    split <;> (refine ⟨by omega, by omega, ?_⟩) <;> omega
  · decide

/-- Witness for `to_canonical_from_canonical_round_trip` at `n = ORDER + 5`. -/
theorem to_canonical_from_canonical_round_trip_witness :
    Goldilocks.to_canonical_u64 (Goldilocks.from_canonical_u64 (Goldilocks.ORDER + 5)) =
      (Goldilocks.ORDER + 5) % Goldilocks.ORDER :=
  ((to_canonical_from_canonical_round_trip.1 (Goldilocks.ORDER + 5) (by decide))).1

set_option maxRecDepth 100000 in
/-- C4: the cube-root addition chain does not invert cubing over this field.
At `a = 2` the computed value cubed is not `2` (under the field equality,
which compares canonical forms).  The chain encodes the exponent
`(2p' - 1)/3 = 0xAAAAAAAA4AAAAAAB` for the Crandall prime
`p' = 2^64 - 9·2^28 + 1`, not a cube-root exponent for the Goldilocks prime
(for which `p ≡ 1 (mod 3)`, so cubing is not even injective). -/
theorem cube_root_not_inverse_of_cube_at_2 :
    Goldilocks.to_canonical_u64 (Goldilocks.cube (Goldilocks.cube_root 2)) ≠
      Goldilocks.to_canonical_u64 2 := by
  decide

namespace Fri

/-!
## FRI proof data model (`src/fri/proof.rs`)

The proof entities are embedded parametrically: `F` is the base field element
type, `MP` the Merkle-proof type, `Cap` the Merkle-cap type and `PolyC` the
final polynomial.  An extension-field evaluation is embedded as its list of
`D` base-field coefficients (`List F`), which is what `flatten` / `unflatten`
of the field crate operate on.  The Merkle-path collaborators
`compress_merkle_proofs` / `decompress_merkle_proofs` are out-of-scope black
boxes (spec section 4.C) and enter as function parameters `cmp` / `dmp`.
`HashMap`s are embedded as association lists inserted at the tail; only
lookups and first-insertion (`entry(..).or_insert(..)`) are used, and the
spec declares iteration order unobservable. -/

/-- `FriQueryStep`: evaluations (extension elements) and their Merkle proof. -/
structure FriQueryStep (F MP : Type) where
  evals : List (List F)
  merkle_proof : MP
deriving DecidableEq

/-- `FriInitialTreeProof`: one `(leaf values, Merkle proof)` pair per oracle. -/
structure FriInitialTreeProof (F MP : Type) where
  evals_proofs : List (List F × MP)
deriving DecidableEq

/-- `FriQueryRound`: an initial-trees proof and one step per reduction. -/
structure FriQueryRound (F MP : Type) where
  initial_trees_proof : FriInitialTreeProof F MP
  steps : List (FriQueryStep F MP)
deriving DecidableEq

/-- `FriProof`. -/
structure FriProof (F MP Cap PolyC : Type) where
  commit_phase_merkle_caps : List Cap
  query_round_proofs : List (FriQueryRound F MP)
  final_poly : PolyC
  pow_witness : F
deriving DecidableEq

/-- `CompressedFriQueryRounds`: the ordered indices plus the keyed maps. -/
structure CompressedFriQueryRounds (F MP : Type) where
  indices : List Nat
  initial_trees_proofs : List (Nat × FriInitialTreeProof F MP)
  steps : List (List (Nat × FriQueryStep F MP))
deriving DecidableEq

/-- `CompressedFriProof`. -/
structure CompressedFriProof (F MP Cap PolyC : Type) where
  commit_phase_merkle_caps : List Cap
  query_round_proofs : CompressedFriQueryRounds F MP
  final_poly : PolyC
  pow_witness : F
deriving DecidableEq

/-- The fields of `FriConfig` used by compression. -/
structure FriConfig where
  rate_bits : Nat
  cap_height : Nat
deriving DecidableEq

/-- The fields of `FriParams` used by compression. -/
structure FriParams where
  config : FriConfig
  reduction_arity_bits : List Nat
  degree_bits : Nat
deriving DecidableEq

/-- The field of the challenge record consumed by `decompress`. -/
structure FriChallenges where
  fri_query_indices : List Nat
deriving DecidableEq

instance {F MP : Type} [Inhabited MP] : Inhabited (FriQueryStep F MP) :=
  ⟨⟨[], default⟩⟩

instance {F MP : Type} : Inhabited (FriInitialTreeProof F MP) :=
  ⟨⟨[]⟩⟩

instance {F MP : Type} [Inhabited MP] : Inhabited (FriQueryRound F MP) :=
  ⟨⟨⟨[]⟩, []⟩⟩

/-- `entry(k).or_insert(v)` on an association-list map: first writer wins. -/
def entryOrInsert {α : Type} (m : List (Nat × α)) (k : Nat) (v : α) : List (Nat × α) :=
  if (List.lookup k m).isSome then m else m ++ [(k, v)]

/-- Sum of the first `i` reduction arities: the total right-shift applied to a
query index before reaching depth `i`. -/
def sumArityBefore (arity : List Nat) (i : Nat) : Nat := (arity.take i).sum

/-- `index_within_coset` at depth `i`: the running index
(`idx >> sumArityBefore i`) masked by `(1 << arity_bits[i]) - 1`. -/
def cosetIndex (arity : List Nat) (i idx : Nat) : Nat :=
  (idx >>> sumArityBefore arity i) % 2 ^ arity.getD i 0

/-- The running index after the shift at depth `i` — the key used in
`steps[i]`. -/
def shiftedIndex (arity : List Nat) (i idx : Nat) : Nat :=
  idx >>> sumArityBefore arity (i + 1)

/-- `num_initial_trees = query_round_proofs[0].initial_trees_proof.evals_proofs.len()`
(the indexing panics on an empty proof; the guard `compressOk` excludes it). -/
def numInitialTrees {F MP Cap PolyC : Type} (proof : FriProof F MP Cap PolyC) : Nat :=
  match proof.query_round_proofs with
  | [] => 0
  | q :: _ => q.initial_trees_proof.evals_proofs.length

/-- `indices.iter().zip(&query_round_proofs)`. -/
def zippedQueries {F MP Cap PolyC : Type} (proof : FriProof F MP Cap PolyC)
    (indices : List Nat) : List (Nat × FriQueryRound F MP) :=
  indices.zip proof.query_round_proofs

/-- Transposed row `initial_trees_indices[t]` (every oracle gets the same
original index per query). -/
def initialIndicesRow {F MP Cap PolyC : Type} (proof : FriProof F MP Cap PolyC)
    (indices : List Nat) : List Nat :=
  (zippedQueries proof indices).map (fun p => p.1)

/-- Transposed row `initial_trees_leaves[t]`. -/
def initialLeavesRow {F MP Cap PolyC : Type} [Inhabited MP]
    (proof : FriProof F MP Cap PolyC) (indices : List Nat) (t : Nat) : List (List F) :=
  (zippedQueries proof indices).map
    (fun p => (p.2.initial_trees_proof.evals_proofs.getD t default).1)

/-- Transposed row `initial_trees_proofs[t]` (uncompressed). -/
def initialProofsRow {F MP Cap PolyC : Type} [Inhabited MP]
    (proof : FriProof F MP Cap PolyC) (indices : List Nat) (t : Nat) : List MP :=
  (zippedQueries proof indices).map
    (fun p => (p.2.initial_trees_proof.evals_proofs.getD t default).2)

/-- Transposed row `steps_indices[i]`: the post-shift index per query. -/
def stepsIndicesRow {F MP Cap PolyC : Type} (proof : FriProof F MP Cap PolyC)
    (indices : List Nat) (arity : List Nat) (i : Nat) : List Nat :=
  (zippedQueries proof indices).map (fun p => shiftedIndex arity i p.1)

/-- Transposed row `steps_evals[i]`: each step's evaluations with the
inferable element (position `index_within_coset`) removed. -/
def stepsEvalsRow {F MP Cap PolyC : Type} [Inhabited MP] (proof : FriProof F MP Cap PolyC)
    (indices : List Nat) (arity : List Nat) (i : Nat) : List (List (List F)) :=
  (zippedQueries proof indices).map
    (fun p => ((p.2.steps.getD i default).evals).eraseIdx (cosetIndex arity i p.1))

/-- Transposed row `steps_proofs[i]` (uncompressed). -/
def stepsProofsRow {F MP Cap PolyC : Type} [Inhabited MP] (proof : FriProof F MP Cap PolyC)
    (indices : List Nat) (arity : List Nat) (i : Nat) : List MP :=
  (zippedQueries proof indices).map (fun p => (p.2.steps.getD i default).merkle_proof)

end Fri

namespace Fri

/-- Compressed row `compress_merkle_proofs(cap_height, initial_trees_indices[t],
initial_trees_proofs[t])`. -/
def compressedInitialRow {F MP Cap PolyC : Type} [Inhabited MP]
    (cmp : Nat → List Nat → List MP → List MP) (proof : FriProof F MP Cap PolyC)
    (indices : List Nat) (params : FriParams) (t : Nat) : List MP :=
  cmp params.config.cap_height (initialIndicesRow proof indices)
    (initialProofsRow proof indices t)

/-- Compressed row `compress_merkle_proofs(cap_height, steps_indices[i],
steps_proofs[i])`. -/
def compressedStepsRow {F MP Cap PolyC : Type} [Inhabited MP]
    (cmp : Nat → List Nat → List MP → List MP) (proof : FriProof F MP Cap PolyC)
    (indices : List Nat) (params : FriParams) (i : Nat) : List MP :=
  cmp params.config.cap_height (stepsIndicesRow proof indices params.reduction_arity_bits i)
    (stepsProofsRow proof indices params.reduction_arity_bits i)

/-- The `FriInitialTreeProof` packed for query position `k`: the transposed
leaves and compressed proofs at slot `k` across the oracles. -/
def initialRecordAt {F MP Cap PolyC : Type} [Inhabited MP]
    (cmp : Nat → List Nat → List MP → List MP) (proof : FriProof F MP Cap PolyC)
    (indices : List Nat) (params : FriParams) (k : Nat) : FriInitialTreeProof F MP :=
  ⟨(List.range (numInitialTrees proof)).map (fun t =>
    ((initialLeavesRow proof indices t).getD k default,
      (compressedInitialRow cmp proof indices params t).getD k default))⟩

/-- The `FriQueryStep` packed for query position `k` at depth `i`. -/
def stepRecordAt {F MP Cap PolyC : Type} [Inhabited MP]
    (cmp : Nat → List Nat → List MP → List MP) (proof : FriProof F MP Cap PolyC)
    (indices : List Nat) (params : FriParams) (i k : Nat) : FriQueryStep F MP :=
  ⟨(stepsEvalsRow proof indices params.reduction_arity_bits i).getD k default,
    (compressedStepsRow cmp proof indices params i).getD k default⟩

/-- The map `initial_trees_proofs`, built by `entry(index).or_insert(..)` over
the query positions in order. -/
def initialMap {F MP Cap PolyC : Type} [Inhabited MP]
    (cmp : Nat → List Nat → List MP → List MP) (proof : FriProof F MP Cap PolyC)
    (indices : List Nat) (params : FriParams) : List (Nat × FriInitialTreeProof F MP) :=
  (List.range indices.length).foldl
    (fun m k => entryOrInsert m (indices.getD k 0) (initialRecordAt cmp proof indices params k))
    []

/-- The map `steps[i]`, keyed by the post-shift index, built by
`entry(index).or_insert(..)` over the query positions in order. -/
def stepsMapAt {F MP Cap PolyC : Type} [Inhabited MP]
    (cmp : Nat → List Nat → List MP → List MP) (proof : FriProof F MP Cap PolyC)
    (indices : List Nat) (params : FriParams) (i : Nat) : List (Nat × FriQueryStep F MP) :=
  (List.range indices.length).foldl
    (fun m k => entryOrInsert m (shiftedIndex params.reduction_arity_bits i (indices.getD k 0))
      (stepRecordAt cmp proof indices params i k))
    []

/-- The conditions under which `FriProof::compress` runs without panicking:
a nonempty proof (`query_round_proofs[0]` is read), at least as many rounds
as indices (the packing loop reads transposed slot `k` for every `k` below
`indices.len()`), every zipped round carrying exactly `num_initial_trees`
oracles and one step per reduction arity (otherwise an indexing of the
transposed rows is out of bounds), and every `evals.remove(index_within_coset)`
in bounds. -/
def compressOk {F MP Cap PolyC : Type} [Inhabited MP] (proof : FriProof F MP Cap PolyC)
    (indices : List Nat) (params : FriParams) : Prop :=
  proof.query_round_proofs.length ≠ 0 ∧
  indices.length ≤ proof.query_round_proofs.length ∧
  ∀ k < (zippedQueries proof indices).length,
    (((zippedQueries proof indices).getD k default).2.initial_trees_proof.evals_proofs.length
        = numInitialTrees proof) ∧
    (((zippedQueries proof indices).getD k default).2.steps.length
        = params.reduction_arity_bits.length) ∧
    ∀ i < params.reduction_arity_bits.length,
      cosetIndex params.reduction_arity_bits i ((zippedQueries proof indices).getD k default).1 <
        ((((zippedQueries proof indices).getD k default).2.steps.getD i default).evals).length

instance {F MP Cap PolyC : Type} [Inhabited MP] (proof : FriProof F MP Cap PolyC)
    (indices : List Nat) (params : FriParams) : Decidable (compressOk proof indices params) := by
  unfold compressOk
  infer_instance

/-- `FriProof::compress`.  A Rust panic (structurally malformed input, see
`compressOk`) is modelled as `none`. -/
def compress {F MP Cap PolyC : Type} [Inhabited MP]
    (cmp : Nat → List Nat → List MP → List MP) (proof : FriProof F MP Cap PolyC)
    (indices : List Nat) (params : FriParams) : Option (CompressedFriProof F MP Cap PolyC) :=
  if compressOk proof indices params then
    some ⟨proof.commit_phase_merkle_caps,
      ⟨indices, initialMap cmp proof indices params,
        (List.range params.reduction_arity_bits.length).map
          (stepsMapAt cmp proof indices params)⟩,
      proof.final_poly, proof.pow_witness⟩
  else none

/-- Modelled from the spec: `flatten` of the field crate turns a sequence of
extension elements into the concatenation of their base coefficients. -/
def flatten {F : Type} (l : List (List F)) : List F := l.flatten

/-- Chunking recursion behind `unflatten`, with structural fuel (the list
length; each step removes `D ≥ 1` elements). -/
def unflattenGo {F : Type} (D : Nat) : Nat → List F → List (List F)
  | 0, _ => []
  | _ + 1, [] => []
  | fuel + 1, x :: xs => (x :: xs).take D :: unflattenGo D fuel ((x :: xs).drop D)

/-- Modelled from the spec: `unflatten` splits a flat coefficient sequence
back into extension elements of `D` coefficients each. -/
def unflatten {F : Type} (D : Nat) (l : List F) : List (List F) :=
  unflattenGo D l.length l

end Fri

namespace Fri

/-- The heights scan of `decompress`: starting from
`degree_bits + rate_bits`, subtract each reduction arity and record the
running value — `heights[i]` is the tree height passed to
`decompress_merkle_proofs` for the depth-`i` step proofs. -/
def friHeights (params : FriParams) : List Nat :=
  (params.reduction_arity_bits.foldl
    (fun (acc : Nat × List Nat) bits => (acc.1 - bits, acc.2 ++ [acc.1 - bits]))
    (params.degree_bits + params.config.rate_bits, [])).2

/-- The inner loop of `decompress` for one query: walk the reduction depths,
look the running index up in `steps[i]`, and either reuse the evaluations
already reconstructed for that key (`evals_by_depth`) or insert the next
inferred element at `index_within_coset`.  `work` zips, per depth, the arity
bits, the `steps[i]` map and the `evals_by_depth[i]` map.  Output: per depth,
the `(post-shift key, flattened evals, merkle proof)` row entries together
with the updated `evals_by_depth[i]`, plus the remaining inferred-element
stream.  `none` models the panics: a missing map entry, an exhausted
inferred-element stream (`next().unwrap()`), or an out-of-bounds
`Vec::insert`. -/
def decompressSteps {F MP : Type} :
    List (Nat × List (Nat × FriQueryStep F MP) × List (Nat × List (List F))) →
    Nat → List (List F) →
    Option (List ((Nat × List F × MP) × List (Nat × List (List F))) × List (List F))
  | [], _, stream => some ([], stream)
  | (aBits, stepMap, ebd) :: rest, idx, stream =>
    let cw := idx % 2 ^ aBits
    let idx2 := idx >>> aBits
    match List.lookup idx2 stepMap with
    | none => none
    | some st =>
      match List.lookup idx2 ebd with
      | some v =>
        match decompressSteps rest idx2 stream with
        | none => none
        | some (out, stream2) =>
          some (((idx2, flatten v, st.merkle_proof), ebd) :: out, stream2)
      | none =>
        match stream with
        | [] => none
        | e :: stream1 =>
          if cw ≤ st.evals.length then
            match decompressSteps rest idx2 stream1 with
            | none => none
            | some (out, stream2) =>
              some (((idx2, flatten (st.evals.insertIdx cw e), st.merkle_proof),
                ebd ++ [(idx2, st.evals.insertIdx cw e)]) :: out, stream2)
          else none

/-- The outer loop of `decompress`: process the queried indices in order,
looking each up in `initial_trees_proofs` (every looked-up entry must carry
`T = num_initial_trees` oracles — a mismatch makes the transposed-row
indexing panic) and walking its reduction steps.  Returns the per-query
records `(index, initial proof, per-depth step rows)` in order, and the
remaining inferred-element stream. -/
def decompressQueries {F MP : Type} (initialTrees : List (Nat × FriInitialTreeProof F MP))
    (stepsMaps : List (List (Nat × FriQueryStep F MP))) (arity : List Nat) (T : Nat) :
    List Nat → List (List (Nat × List (List F))) → List (List F) →
    Option (List (Nat × FriInitialTreeProof F MP × List (Nat × List F × MP)) × List (List F))
  | [], _, stream => some ([], stream)
  | idx :: rest, ebd, stream =>
    match List.lookup idx initialTrees with
    | none => none
    | some itp =>
      if itp.evals_proofs.length = T then
        match decompressSteps (arity.zip (stepsMaps.zip ebd)) idx stream with
        | none => none
        | some (stepOut, stream1) =>
          match decompressQueries initialTrees stepsMaps arity T rest
              (stepOut.map (fun q => q.2)) stream1 with
          | none => none
          | some (out, stream2) =>
            some ((idx, itp, stepOut.map (fun q => q.1)) :: out, stream2)
      else none

/-- Transposed row `initial_trees_leaves[t]` on the decompression side. -/
def initialLeavesRowD {F MP : Type} [Inhabited MP]
    (records : List (Nat × FriInitialTreeProof F MP × List (Nat × List F × MP)))
    (t : Nat) : List (List F) :=
  records.map (fun r => (r.2.1.evals_proofs.getD t default).1)

/-- Transposed row `initial_trees_proofs[t]` (still compressed) on the
decompression side. -/
def initialProofsRowD {F MP : Type} [Inhabited MP]
    (records : List (Nat × FriInitialTreeProof F MP × List (Nat × List F × MP)))
    (t : Nat) : List MP :=
  records.map (fun r => (r.2.1.evals_proofs.getD t default).2)

/-- Transposed row `steps_indices[i]` on the decompression side. -/
def stepKeysRowD {F MP : Type} [Inhabited F] [Inhabited MP]
    (records : List (Nat × FriInitialTreeProof F MP × List (Nat × List F × MP)))
    (i : Nat) : List Nat :=
  records.map (fun r => (r.2.2.getD i default).1)

/-- Transposed row `steps_evals[i]` (flattened evaluations) on the
decompression side. -/
def stepEvalsRowD {F MP : Type} [Inhabited F] [Inhabited MP]
    (records : List (Nat × FriInitialTreeProof F MP × List (Nat × List F × MP)))
    (i : Nat) : List (List F) :=
  records.map (fun r => (r.2.2.getD i default).2.1)

/-- Transposed row `steps_proofs[i]` (still compressed) on the decompression
side. -/
def stepProofsRowD {F MP : Type} [Inhabited F] [Inhabited MP]
    (records : List (Nat × FriInitialTreeProof F MP × List (Nat × List F × MP)))
    (i : Nat) : List MP :=
  records.map (fun r => (r.2.2.getD i default).2.2)

/-- `decompress_merkle_proofs` call for the initial trees of oracle `t`:
leaves, the original indices, the compressed proofs, the full tree height
`degree_bits + rate_bits`, and the cap height. -/
def decompressedInitialRow {F MP : Type} [Inhabited MP]
    (dmp : List (List F) → List Nat → List MP → Nat → Nat → List MP)
    (params : FriParams)
    (records : List (Nat × FriInitialTreeProof F MP × List (Nat × List F × MP)))
    (t : Nat) : List MP :=
  dmp (initialLeavesRowD records t) (records.map (fun r => r.1))
    (initialProofsRowD records t)
    (params.degree_bits + params.config.rate_bits) params.config.cap_height

/-- `decompress_merkle_proofs` call for the depth-`i` step proofs: flattened
evaluations as leaves, the post-shift keys as indices, and `heights[i]`. -/
def decompressedStepsRow {F MP : Type} [Inhabited F] [Inhabited MP]
    (dmp : List (List F) → List Nat → List MP → Nat → Nat → List MP)
    (params : FriParams)
    (records : List (Nat × FriInitialTreeProof F MP × List (Nat × List F × MP)))
    (i : Nat) : List MP :=
  dmp (stepEvalsRowD records i) (stepKeysRowD records i) (stepProofsRowD records i)
    ((friHeights params).getD i 0) params.config.cap_height

/-- Rebuild `query_round_proofs` in original order: re-index the transposed
arrays slot by slot, unflattening step evaluations back to extension
elements. -/
def rebuildRounds {F MP : Type} [Inhabited F] [Inhabited MP]
    (dmp : List (List F) → List Nat → List MP → Nat → Nat → List MP) (D : Nat)
    (params : FriParams) (T : Nat)
    (records : List (Nat × FriInitialTreeProof F MP × List (Nat × List F × MP))) :
    List (FriQueryRound F MP) :=
  (List.range records.length).map (fun k =>
    ⟨⟨(List.range T).map (fun t =>
        ((initialLeavesRowD records t).getD k default,
          (decompressedInitialRow dmp params records t).getD k default))⟩,
      (List.range params.reduction_arity_bits.length).map (fun i =>
        ⟨unflatten D ((stepEvalsRowD records i).getD k default),
          (decompressedStepsRow dmp params records i).getD k default⟩)⟩)

/-- `CompressedFriProof::decompress`.  `none` models every panic of the Rust
code: `values().next().unwrap()` on an empty map, the indexing
`steps[i][&index]` (which also requires `steps` to carry one map per
reduction), a missing `initial_trees_proofs` entry for a queried index, an
oracle-count mismatch, a depleted inferred-element stream, and an
out-of-bounds insertion. -/
def decompress {F MP Cap PolyC : Type} [Inhabited F] [Inhabited MP]
    (dmp : List (List F) → List Nat → List MP → Nat → Nat → List MP) (D : Nat)
    (cproof : CompressedFriProof F MP Cap PolyC) (challenges : FriChallenges)
    (fri_inferred_elements : List (List F)) (params : FriParams) :
    Option (FriProof F MP Cap PolyC) :=
  match cproof.query_round_proofs.initial_trees_proofs with
  | [] => none
  | e0 :: _ =>
    if params.reduction_arity_bits.length ≤ cproof.query_round_proofs.steps.length then
      match decompressQueries cproof.query_round_proofs.initial_trees_proofs
          (cproof.query_round_proofs.steps.take params.reduction_arity_bits.length)
          params.reduction_arity_bits e0.2.evals_proofs.length
          challenges.fri_query_indices
          (List.replicate params.reduction_arity_bits.length [])
          fri_inferred_elements with
      | none => none
      | some (records, _) =>
        some ⟨cproof.commit_phase_merkle_caps,
          rebuildRounds dmp D params e0.2.evals_proofs.length records,
          cproof.final_poly, cproof.pow_witness⟩
    else none

end Fri

namespace Fri

theorem entryOrInsert_eq {α : Type} (m : List (Nat × α)) (k : Nat) (v : α) :
    entryOrInsert m k v = if (List.lookup k m).isSome then m else m ++ [(k, v)] := rfl

theorem lookup_entryOrInsert_fold {α : Type} (f : Nat → Nat) (g : Nat → α) :
    ∀ n k₀ : Nat,
      List.lookup k₀ ((List.range n).foldl (fun m k => entryOrInsert m (f k) (g k)) []) =
        ((List.range n).find? (fun k => f k == k₀)).map g := by
  intro n
  induction n with
  | zero => intro k₀; simp
  | succ n ih =>
    intro k₀
    rw [List.range_succ, List.foldl_append, List.find?_append]
    simp only [List.foldl_cons, List.foldl_nil, List.find?_cons, List.find?_nil]
    rw [entryOrInsert_eq]
    by_cases hp : (List.lookup (f n)
        ((List.range n).foldl (fun m k => entryOrInsert m (f k) (g k)) [])).isSome
    · rw [if_pos hp, ih]
      cases hfind : (List.range n).find? (fun k => f k == k₀) with
      | some j => simp [Option.or]
      | none =>
        by_cases hk : f n == k₀
        · exfalso
          have hk2 : f n = k₀ := by simpa using hk
          rw [ih (f n), hk2, hfind] at hp
          simp at hp
        · simp [Option.or, hk, hfind]
    · rw [if_neg hp, List.lookup_append, ih]
      cases hfind : (List.range n).find? (fun k => f k == k₀) with
      | some j => simp [Option.or]
      | none =>
        by_cases hk : f n == k₀
        · have hk2 : f n = k₀ := by simpa using hk
          simp [Option.or, hk, List.lookup, hk2.symm ▸ (beq_self_eq_true k₀)]
          rw [← hk2]
          simp [hk2]
        · have hk2 : ¬ k₀ = f n := by
            intro he; exact absurd (by simpa using he.symm) (by simpa using hk)
          have hkb : (k₀ == f n) = false := by simpa using hk2
          simp [Option.or, hk, List.lookup, hkb]

theorem mem_entryOrInsert_fold {α : Type} (f : Nat → Nat) (g : Nat → α) :
    ∀ n p, p ∈ (List.range n).foldl (fun m k => entryOrInsert m (f k) (g k)) [] →
      ∃ j, j < n ∧ p = (f j, g j) := by
  intro n
  induction n with
  | zero => intro p h; simp at h
  | succ n ih =>
    intro p h
    rw [List.range_succ, List.foldl_append] at h
    simp only [List.foldl_cons, List.foldl_nil] at h
    rw [entryOrInsert_eq] at h
    by_cases hp : (List.lookup (f n)
        ((List.range n).foldl (fun m k => entryOrInsert m (f k) (g k)) [])).isSome
    · rw [if_pos hp] at h
      obtain ⟨j, hj, he⟩ := ih p h
      exact ⟨j, by omega, he⟩
    · rw [if_neg hp] at h
      rcases List.mem_append.1 h with h2 | h2
      · obtain ⟨j, hj, he⟩ := ih p h2
        exact ⟨j, by omega, he⟩
      · simp at h2
        exact ⟨n, by omega, by rw [h2]⟩

theorem map_getD_range {α : Type} (l : List α) (d : α) :
    (List.range l.length).map (fun k => l.getD k d) = l := by
  apply List.ext_getElem
  · simp
  · intro i h1 h2
    simp only [List.getElem_map, List.getElem_range]
    rw [List.getD_eq_getElem l d h2]

theorem getD_map_of_lt {α β : Type} (f : α → β) (l : List α) (k : Nat) (h : k < l.length)
    (d : α) (d2 : β) : (l.map f).getD k d2 = f (l.getD k d) := by
  rw [List.getD_eq_getElem _ d2 (by simpa using h), List.getD_eq_getElem _ d h]
  simp

theorem insertIdx_eraseIdx_getD {α : Type} (l : List α) (i : Nat) (h : i < l.length) (d : α) :
    List.insertIdx i (l.getD i d) (l.eraseIdx i) = l := by
  induction l generalizing i with
  | nil => simp at h
  | cons a t ih =>
    cases i with
    | zero => simp [List.insertIdx, List.eraseIdx]
    | succ n =>
      simp only [List.length_cons, Nat.add_lt_add_iff_right] at h
      have hgd : (a :: t).getD (n + 1) d = t.getD n d := by simp [List.getD]
      rw [hgd, List.eraseIdx_cons_succ, List.insertIdx_succ_cons, ih n h]

theorem unflattenGo_flatten {F : Type} (D : Nat) (hD : 0 < D) :
    ∀ (l : List (List F)) (fuel : Nat), (∀ e ∈ l, e.length = D) →
      (flatten l).length ≤ fuel → unflattenGo D fuel (flatten l) = l := by
  intro l
  induction l with
  | nil => intro fuel _ _; cases fuel <;> simp [unflattenGo, flatten]
  | cons e rest ih =>
    intro fuel hlen hfuel
    have he : e.length = D := hlen e (by simp)
    have hD2 : flatten (e :: rest) = e ++ flatten rest := by simp [flatten]
    have hne : flatten (e :: rest) ≠ [] := by
      rw [hD2]
      intro hc
      have : e = [] := by
        rcases List.append_eq_nil.1 hc with ⟨h1, _⟩
        exact h1
      rw [this] at he
      simp at he
      omega
    cases fuel with
    | zero =>
      exfalso
      have : (flatten (e :: rest)).length = 0 := by omega
      exact hne (List.length_eq_zero.1 this)
    | succ f =>
      rw [hD2]
      cases hce : e ++ flatten rest with
      | nil => exact absurd (hD2 ▸ hce) hne
      | cons x xs =>
        rw [← hce]
        have hgo : unflattenGo D (f + 1) (e ++ flatten rest) =
            (e ++ flatten rest).take D :: unflattenGo D f ((e ++ flatten rest).drop D) := by
          rw [hce]
          rfl
        rw [hgo]
        have htake : (e ++ flatten rest).take D = e := by
          rw [← he, List.take_left]
        have hdrop : (e ++ flatten rest).drop D = flatten rest := by
          rw [← he, List.drop_left]
        rw [htake, hdrop]
        congr 1
        have hflen : (flatten (e :: rest)).length = e.length + (flatten rest).length := by
          rw [hD2]; simp
        exact ih f (fun x hx => hlen x (List.mem_cons_of_mem e hx)) (by omega)

theorem unflatten_flatten {F : Type} (D : Nat) (hD : 0 < D) (l : List (List F))
    (hlen : ∀ e ∈ l, e.length = D) : unflatten D (flatten l) = l :=
  unflattenGo_flatten D hD l (flatten l).length hlen (le_refl _)

theorem sumArityBefore_succ (arity : List Nat) (i : Nat) (h : i < arity.length) :
    sumArityBefore arity (i + 1) = sumArityBefore arity i + arity.getD i 0 := by
  unfold sumArityBefore
  rw [List.take_succ, List.sum_append]
  congr 1
  rw [List.getD_eq_getElem _ _ h]
  simp [List.get?_eq_getElem?, List.getElem?_eq_getElem h]

theorem shiftedIndex_chain (arity : List Nat) (i idx : Nat) (h : i < arity.length) :
    idx >>> sumArityBefore arity i >>> arity.getD i 0 = shiftedIndex arity i idx := by
  rw [shiftedIndex, sumArityBefore_succ arity i h, Nat.shiftRight_add]

theorem shift_ne_of_shift_ne (x y s s2 : Nat) (hs : s2 ≤ s) (h : x >>> s ≠ y >>> s) :
    x >>> s2 ≠ y >>> s2 := by
  intro he
  apply h
  have h2 : x >>> s2 >>> (s - s2) = y >>> s2 >>> (s - s2) := by rw [he]
  rwa [← Nat.shiftRight_add, ← Nat.shiftRight_add, Nat.add_sub_cancel' hs] at h2

end Fri

namespace Fri

theorem find?_range_eq_some (p : Nat → Bool) :
    ∀ n k, k < n → p k = true → (∀ j < k, p j = false) →
      (List.range n).find? p = some k := by
  intro n
  induction n with
  | zero => intro k hk; omega
  | succ n ih =>
    intro k hk hp hmin
    rw [List.range_succ, List.find?_append]
    by_cases hkn : k < n
    · rw [ih k hkn hp hmin]
      simp [Option.or]
    · have hkn2 : k = n := by omega
      subst hkn2
      have hnone : (List.range k).find? p = none := by
        rw [List.find?_eq_none]
        intro x hx
        simp only [List.mem_range] at hx
        simp [hmin x hx]
      rw [hnone]
      simp [Option.or, List.find?_cons, hp]

theorem lookup_map_range_none {α : Type} (h : Nat → Nat) (w : Nat → α) (m k₀ : Nat)
    (hne : ∀ j < m, h j ≠ k₀) :
    List.lookup k₀ ((List.range m).map (fun j => (h j, w j))) = none := by
  induction m with
  | zero => simp
  | succ m ih =>
    rw [List.range_succ, List.map_append, List.lookup_append]
    rw [ih (fun j hj => hne j (by omega))]
    have : (k₀ == h m) = false := by
      simp only [beq_eq_false_iff_ne, ne_eq]
      intro he
      exact hne m (by omega) he.symm
    simp [Option.or, List.lookup, this]

/-- `(index, query round)` at query position `k`. -/
def queryAt {F MP Cap PolyC : Type} [Inhabited MP] (proof : FriProof F MP Cap PolyC)
    (indices : List Nat) (k : Nat) : Nat × FriQueryRound F MP :=
  (zippedQueries proof indices).getD k default

/-- The full evaluation list of query `k` at reduction depth `i`. -/
def stepEvalsAt {F MP Cap PolyC : Type} [Inhabited MP] (proof : FriProof F MP Cap PolyC)
    (indices : List Nat) (k i : Nat) : List (List F) :=
  ((queryAt proof indices k).2.steps.getD i default).evals

/-- The evaluation that compression removes for query `k` at depth `i` — the
one the verifier can rederive. -/
def inferElemAt {F MP Cap PolyC : Type} [Inhabited MP] (proof : FriProof F MP Cap PolyC)
    (indices : List Nat) (arity : List Nat) (k i : Nat) : List F :=
  (stepEvalsAt proof indices k i).getD
    (cosetIndex arity i (queryAt proof indices k).1) []

/-- Modelled from the spec: the `FriInferredElements` stream produced by the
out-of-scope verifier — one element per `(query, reduction depth)` pair whose
post-shift index is observed for the first time at that depth (walking the
queries in order), the element being the evaluation at `index_within_coset`
that compression removed. -/
def inferredElements {F MP Cap PolyC : Type} [Inhabited MP] (proof : FriProof F MP Cap PolyC)
    (indices : List Nat) (arity : List Nat) : List (List F) :=
  ((List.range (zippedQueries proof indices).length).map (fun k =>
    (List.range arity.length).filterMap (fun i =>
      if ∀ j < k, shiftedIndex arity i (queryAt proof indices j).1 ≠
          shiftedIndex arity i (queryAt proof indices k).1
      then some (inferElemAt proof indices arity k i) else none))).flatten

end Fri

namespace Fri

set_option maxHeartbeats 1000000 in
/-- Walking the reduction depths for one query where every post-shift key is
fresh (absent from `evals_by_depth`): each depth looks up its step record,
consumes one inferred element, reinserts it at `index_within_coset`, and
appends the reconstructed evaluations to its `evals_by_depth` map. -/
theorem decompressSteps_all_fresh {F MP : Type} [Inhabited F] [Inhabited MP]
    (RR : Nat) (arity : List Nat) (Ms : List (List (Nat × FriQueryStep F MP)))
    (st : Nat → FriQueryStep F MP) (e : Nat → List F) (idx0 : Nat)
    (hA : arity.length = RR) (hM : Ms.length = RR) :
    ∀ len i (Eb : List (List (Nat × List (List F)))) (tailStream : List (List F)),
      i + len = RR → Eb.length = RR →
      (∀ j, i ≤ j → j < RR →
        List.lookup (idx0 >>> sumArityBefore arity (j + 1)) (Ms.getD j []) = some (st j) ∧
        List.lookup (idx0 >>> sumArityBefore arity (j + 1)) (Eb.getD j []) = none ∧
        cosetIndex arity j idx0 ≤ (st j).evals.length) →
      decompressSteps ((arity.drop i).zip ((Ms.drop i).zip (Eb.drop i)))
          (idx0 >>> sumArityBefore arity i)
          ((List.range' i len).map e ++ tailStream) =
        some ((List.range' i len).map (fun j =>
          ((idx0 >>> sumArityBefore arity (j + 1),
            flatten ((st j).evals.insertIdx (cosetIndex arity j idx0) (e j)),
            (st j).merkle_proof),
            (Eb.getD j []) ++ [(idx0 >>> sumArityBefore arity (j + 1),
              (st j).evals.insertIdx (cosetIndex arity j idx0) (e j))])),
          tailStream) := by
  intro len
  induction len with
  | zero =>
    intro i Eb tailStream hi hEb hcond
    have hiR : i = RR := by omega
    subst hiR
    rw [List.drop_eq_nil_of_le (by omega)]
    have hz : ([] : List Nat).zip ((Ms.drop i).zip (Eb.drop i)) = [] := rfl
    rw [hz]
    simp [decompressSteps, List.range']
  | succ len ih =>
    intro i Eb tailStream hi hEb hcond
    have hiR : i < RR := by omega
    have hdA : arity.drop i = arity.getD i 0 :: arity.drop (i + 1) := by
      rw [List.drop_eq_getElem_cons (by omega), List.getD_eq_getElem _ _ (by omega)]
    have hdM : Ms.drop i = Ms.getD i [] :: Ms.drop (i + 1) := by
      rw [List.drop_eq_getElem_cons (by omega), List.getD_eq_getElem _ _ (by omega)]
    have hdE : Eb.drop i = Eb.getD i [] :: Eb.drop (i + 1) := by
      rw [List.drop_eq_getElem_cons (by omega), List.getD_eq_getElem _ _ (by omega)]
    rw [hdA, hdM, hdE, List.zip_cons_cons, List.zip_cons_cons]
    have hrange : List.range' i (len + 1) = i :: List.range' (i + 1) len := by
      simp [List.range']
    rw [hrange, List.map_cons, List.map_cons, List.cons_append]
    obtain ⟨hlook, hebd, hcw⟩ := hcond i (le_refl i) hiR
    have hshift : idx0 >>> sumArityBefore arity i >>> arity.getD i 0 =
        idx0 >>> sumArityBefore arity (i + 1) :=
      shiftedIndex_chain arity i idx0 (by omega)
    have hcoset : idx0 >>> sumArityBefore arity i % 2 ^ arity.getD i 0 =
        cosetIndex arity i idx0 := rfl
    show decompressSteps _ _ _ = _
    rw [decompressSteps]
    simp only [hshift, hcoset, hlook, hebd]
    rw [if_pos hcw]
    rw [ih (i + 1) Eb tailStream (by omega) hEb
      (fun j hj1 hj2 => hcond j (by omega) hj2)]

end Fri

namespace Fri

/-- Structural well-formedness of a `FriProof` relative to its query indices
(spec section 3 invariants, plus the length-`D` shape of extension elements
that the Rust types carry intrinsically): one round per index, one oracle
count throughout, one step per reduction arity, `2^arity_bits[i]`
evaluations per step. -/
def wellFormed {F MP Cap PolyC : Type} [Inhabited MP] (proof : FriProof F MP Cap PolyC)
    (indices : List Nat) (params : FriParams) (D : Nat) : Prop :=
  indices.length = proof.query_round_proofs.length ∧
  ∀ k < indices.length,
    (queryAt proof indices k).2.initial_trees_proof.evals_proofs.length
        = numInitialTrees proof ∧
    (queryAt proof indices k).2.steps.length = params.reduction_arity_bits.length ∧
    ∀ i < params.reduction_arity_bits.length,
      (stepEvalsAt proof indices k i).length = 2 ^ params.reduction_arity_bits.getD i 0 ∧
      ∀ ev ∈ stepEvalsAt proof indices k i, ev.length = D

/-- The queried indices stay pairwise distinct after the full sequence of
reduction shifts (hence at every depth and initially). -/
def distinctIndices (indices : List Nat) (arity : List Nat) : Prop :=
  ∀ k k2, k < indices.length → k2 < indices.length → k ≠ k2 →
    indices.getD k 0 >>> sumArityBefore arity arity.length ≠
      indices.getD k2 0 >>> sumArityBefore arity arity.length

theorem sumArityBefore_mono (arity : List Nat) (i j : Nat) (h : i ≤ j) :
    sumArityBefore arity i ≤ sumArityBefore arity j := by
  unfold sumArityBefore
  induction arity generalizing i j with
  | nil => simp
  | cons a t ih =>
    cases i with
    | zero => simp
    | succ i2 =>
      cases j with
      | zero => omega
      | succ j2 =>
        simp only [List.take_succ_cons, List.sum_cons]
        have := ih i2 j2 (by omega)
        omega

theorem distinct_shifted (indices : List Nat) (arity : List Nat)
    (hdis : distinctIndices indices arity) (i k k2 : Nat) (hk : k < indices.length)
    (hk2 : k2 < indices.length) (hne : k ≠ k2) (hi : i + 1 ≤ arity.length) :
    shiftedIndex arity i (indices.getD k 0) ≠ shiftedIndex arity i (indices.getD k2 0) :=
  shift_ne_of_shift_ne _ _ _ _ (sumArityBefore_mono arity (i + 1) arity.length hi)
    (hdis k k2 hk hk2 hne)

theorem distinct_initial (indices : List Nat) (arity : List Nat)
    (hdis : distinctIndices indices arity) (k k2 : Nat) (hk : k < indices.length)
    (hk2 : k2 < indices.length) (hne : k ≠ k2) :
    indices.getD k 0 ≠ indices.getD k2 0 := by
  have h0 : indices.getD k 0 >>> 0 ≠ indices.getD k2 0 >>> 0 :=
    shift_ne_of_shift_ne _ _ _ _ (Nat.zero_le _) (hdis k k2 hk hk2 hne)
  simpa using h0

theorem queryAt_fst {F MP Cap PolyC : Type} [Inhabited MP] (proof : FriProof F MP Cap PolyC)
    (indices : List Nat) (k : Nat) (h : k < (zippedQueries proof indices).length) :
    (queryAt proof indices k).1 = indices.getD k 0 := by
  unfold queryAt zippedQueries at *
  rw [List.getD_eq_getElem _ _ h]
  simp only [List.length_zip] at h
  rw [List.getElem_zip]
  rw [List.getD_eq_getElem _ _ (by omega)]

theorem zippedQueries_length {F MP Cap PolyC : Type} (proof : FriProof F MP Cap PolyC)
    (indices : List Nat) (hlen : indices.length = proof.query_round_proofs.length) :
    (zippedQueries proof indices).length = indices.length := by
  unfold zippedQueries
  simp [hlen]

theorem lookup_initialMap_of_distinct {F MP Cap PolyC : Type} [Inhabited MP]
    (cmp : Nat → List Nat → List MP → List MP) (proof : FriProof F MP Cap PolyC)
    (indices : List Nat) (params : FriParams) (arity : List Nat)
    (harity : arity = params.reduction_arity_bits)
    (hdis : distinctIndices indices arity) (k : Nat) (hk : k < indices.length) :
    List.lookup (indices.getD k 0) (initialMap cmp proof indices params) =
      some (initialRecordAt cmp proof indices params k) := by
  unfold initialMap
  rw [lookup_entryOrInsert_fold]
  rw [find?_range_eq_some _ indices.length k hk (by simp)
    (fun j hj => by
      simp only [beq_eq_false_iff_ne, ne_eq]
      exact distinct_initial indices arity hdis j k (by omega) hk (by omega))]
  rfl

theorem lookup_stepsMapAt_of_distinct {F MP Cap PolyC : Type} [Inhabited MP]
    (cmp : Nat → List Nat → List MP → List MP) (proof : FriProof F MP Cap PolyC)
    (indices : List Nat) (params : FriParams) (i : Nat)
    (hi : i < params.reduction_arity_bits.length)
    (hdis : distinctIndices indices params.reduction_arity_bits) (k : Nat)
    (hk : k < indices.length) :
    List.lookup (shiftedIndex params.reduction_arity_bits i (indices.getD k 0))
        (stepsMapAt cmp proof indices params i) =
      some (stepRecordAt cmp proof indices params i k) := by
  unfold stepsMapAt
  rw [lookup_entryOrInsert_fold]
  rw [find?_range_eq_some _ indices.length k hk (by simp)
    (fun j hj => by
      simp only [beq_eq_false_iff_ne, ne_eq]
      exact distinct_shifted indices params.reduction_arity_bits hdis i j k (by omega) hk
        (by omega) (by omega))]
  rfl

end Fri

namespace Fri

theorem stepRecordAt_evals {F MP Cap PolyC : Type} [Inhabited F] [Inhabited MP]
    (cmp : Nat → List Nat → List MP → List MP) (proof : FriProof F MP Cap PolyC)
    (indices : List Nat) (params : FriParams) (i k : Nat)
    (hk : k < (zippedQueries proof indices).length) :
    (stepRecordAt cmp proof indices params i k).evals =
      (stepEvalsAt proof indices k i).eraseIdx
        (cosetIndex params.reduction_arity_bits i (indices.getD k 0)) := by
  show (stepsEvalsRow proof indices params.reduction_arity_bits i).getD k default = _
  unfold stepsEvalsRow
  rw [getD_map_of_lt _ _ k (by simpa [zippedQueries] using hk) default]
  rw [show (zippedQueries proof indices).getD k default = queryAt proof indices k from rfl]
  rw [queryAt_fst proof indices k hk]
  rfl

set_option maxHeartbeats 2000000 in
/-- The decompression walk over the queried indices, when the indices remain
pairwise distinct at every depth: every map lookup resolves to the record the
compressor stored for that same query position, every `evals_by_depth` lookup
misses, each depth consumes one inferred element and restores the full
evaluation list, and the walk returns the per-query records in order with the
stream fully consumed. -/
theorem decompressQueries_roundtrip {F MP Cap PolyC : Type} [Inhabited F] [Inhabited MP]
    (cmp : Nat → List Nat → List MP → List MP) (proof : FriProof F MP Cap PolyC)
    (indices : List Nat) (params : FriParams) (D : Nat)
    (hwf : wellFormed proof indices params D)
    (hdis : distinctIndices indices params.reduction_arity_bits) :
    ∀ len k, k + len = indices.length →
      decompressQueries (initialMap cmp proof indices params)
          ((List.range params.reduction_arity_bits.length).map
            (stepsMapAt cmp proof indices params))
          params.reduction_arity_bits (numInitialTrees proof)
          (indices.drop k)
          ((List.range params.reduction_arity_bits.length).map (fun i =>
            (List.range k).map (fun j =>
              (shiftedIndex params.reduction_arity_bits i (indices.getD j 0),
                stepEvalsAt proof indices j i))))
          (((List.range' k len).map (fun k2 =>
            (List.range params.reduction_arity_bits.length).map
              (fun i => inferElemAt proof indices params.reduction_arity_bits k2 i))).flatten) =
        some (((List.range' k len).map (fun k2 =>
          (indices.getD k2 0, initialRecordAt cmp proof indices params k2,
            (List.range params.reduction_arity_bits.length).map (fun i =>
              (shiftedIndex params.reduction_arity_bits i (indices.getD k2 0),
                flatten (stepEvalsAt proof indices k2 i),
                (compressedStepsRow cmp proof indices params i).getD k2 default))))),
          []) := by
  obtain ⟨hlen, hwf2⟩ := hwf
  have hzlen : (zippedQueries proof indices).length = indices.length :=
    zippedQueries_length proof indices hlen
  set arity := params.reduction_arity_bits with harity
  set R := arity.length with hR
  intro len
  induction len with
  | zero =>
    intro k hk
    rw [List.drop_eq_nil_of_le (by omega)]
    simp [decompressQueries, List.range']
  | succ len ih =>
    intro k hk
    have hkn : k < indices.length := by omega
    have hdrop : indices.drop k = indices.getD k 0 :: indices.drop (k + 1) := by
      rw [List.drop_eq_getElem_cons (by omega), List.getD_eq_getElem _ _ (by omega)]
    rw [hdrop]
    have hrange : List.range' k (len + 1) = k :: List.range' (k + 1) len := by
      simp [List.range']
    rw [hrange, List.map_cons, List.map_cons, List.flatten_cons]
    show decompressQueries _ _ _ _ _ _ _ = _
    rw [decompressQueries]
    rw [lookup_initialMap_of_distinct cmp proof indices params arity rfl hdis k hkn]
    simp only []
    have hcount : (initialRecordAt cmp proof indices params k).evals_proofs.length =
        numInitialTrees proof := by
      unfold initialRecordAt
      simp
    rw [if_pos hcount]
    -- the steps walk for query k
    have hcond : ∀ j, 0 ≤ j → j < R →
        List.lookup (indices.getD k 0 >>> sumArityBefore arity (j + 1))
            (((List.range R).map (stepsMapAt cmp proof indices params)).getD j []) =
          some (stepRecordAt cmp proof indices params j k) ∧
        List.lookup (indices.getD k 0 >>> sumArityBefore arity (j + 1))
            ((((List.range R).map (fun i =>
              (List.range k).map (fun j2 =>
                (shiftedIndex arity i (indices.getD j2 0),
                  stepEvalsAt proof indices j2 i))))).getD j []) = none ∧
        cosetIndex arity j (indices.getD k 0) ≤
          (stepRecordAt cmp proof indices params j k).evals.length := by
      intro j hj0 hjR
      have hMs : ((List.range R).map (stepsMapAt cmp proof indices params)).getD j [] =
          stepsMapAt cmp proof indices params j := by
        rw [getD_map_of_lt _ _ j (by simpa using hjR) 0]
        congr 1
        rw [List.getD_eq_getElem _ _ (by simpa using hjR)]
        simp
      have hEb : ((List.range R).map (fun i =>
          (List.range k).map (fun j2 =>
            (shiftedIndex arity i (indices.getD j2 0),
              stepEvalsAt proof indices j2 i)))).getD j [] =
          (List.range k).map (fun j2 =>
            (shiftedIndex arity j (indices.getD j2 0), stepEvalsAt proof indices j2 j)) := by
        rw [getD_map_of_lt _ _ j (by simpa using hjR) 0]
        congr 1
        rw [List.getD_eq_getElem _ _ (by simpa using hjR)]
        simp
      refine ⟨?_, ?_, ?_⟩
      · rw [hMs]
        exact lookup_stepsMapAt_of_distinct cmp proof indices params j hjR hdis k hkn
      · rw [hEb]
        apply lookup_map_range_none
        intro j2 hj2
        exact distinct_shifted indices arity hdis j j2 k (by omega) hkn (by omega) (by omega)
      · rw [stepRecordAt_evals cmp proof indices params j k (by omega)]
        obtain ⟨hlen2, _⟩ := (hwf2 k hkn).2.2 j hjR
        have hcw : cosetIndex arity j (indices.getD k 0) <
            (stepEvalsAt proof indices k j).length := by
          rw [hlen2]
          exact Nat.mod_lt _ (Nat.pos_pow_of_pos _ (by omega))
        rw [List.length_eraseIdx]
        rw [if_pos hcw]
        omega
    have hsteps := decompressSteps_all_fresh R arity
      ((List.range R).map (stepsMapAt cmp proof indices params))
      (fun j => stepRecordAt cmp proof indices params j k)
      (fun j => inferElemAt proof indices arity k j)
      (indices.getD k 0) rfl (by simp)
      R 0
      ((List.range R).map (fun i =>
        (List.range k).map (fun j =>
          (shiftedIndex arity i (indices.getD j 0), stepEvalsAt proof indices j i))))
      (((List.range' (k + 1) len).map (fun k2 =>
        (List.range R).map (fun i => inferElemAt proof indices arity k2 i))).flatten)
      (by omega) (by simp) hcond
    · -- use the steps walk and recurse
      have hzero : sumArityBefore arity 0 = 0 := rfl
      rw [hzero, Nat.shiftRight_zero, List.drop_zero, List.drop_zero, List.drop_zero]
        at hsteps
      have hstreameq : (List.range' 0 R).map (fun j => inferElemAt proof indices arity k j) =
          (List.range R).map (fun i => inferElemAt proof indices arity k i) := by
        rw [← List.range_eq_range']
      rw [hstreameq] at hsteps
      rw [hsteps]
      simp only []
      rw [List.map_map, List.map_map]
      dsimp only [Function.comp_def]
      -- identify the updated evals_by_depth with the (k+1) state
      have hebd : ((List.range' 0 R).map (fun j =>
          ((List.range R).map (fun i =>
            (List.range k).map (fun j2 =>
              (shiftedIndex arity i (indices.getD j2 0),
                stepEvalsAt proof indices j2 i)))).getD j [] ++
            [(indices.getD k 0 >>> sumArityBefore arity (j + 1),
              (stepRecordAt cmp proof indices params j k).evals.insertIdx
                (cosetIndex arity j (indices.getD k 0))
                (inferElemAt proof indices arity k j))])) =
          (List.range R).map (fun i =>
            (List.range (k + 1)).map (fun j2 =>
              (shiftedIndex arity i (indices.getD j2 0),
                stepEvalsAt proof indices j2 i))) := by
        rw [← List.range_eq_range']
        apply List.ext_getElem
        · simp
        · intro i h1 h2
          simp only [List.getElem_map, List.getElem_range]
          have hiR : i < R := by simpa using h1
          rw [getD_map_of_lt _ _ i (by simpa using hiR) 0]
          rw [List.getD_eq_getElem (List.range R) _ (by simpa using hiR)]
          simp only [List.getElem_range]
          rw [List.range_succ, List.map_append, List.map_cons, List.map_nil]
          congr 1
          rw [stepRecordAt_evals cmp proof indices params i k (by omega)]
          obtain ⟨hlen2, _⟩ := (hwf2 k hkn).2.2 i hiR
          have hcw : cosetIndex arity i (indices.getD k 0) <
              (stepEvalsAt proof indices k i).length := by
            rw [hlen2]
            exact Nat.mod_lt _ (Nat.pos_pow_of_pos _ (by omega))
          rw [show inferElemAt proof indices arity k i =
              (stepEvalsAt proof indices k i).getD
                (cosetIndex arity i (indices.getD k 0)) [] from ?_]
          · rw [insertIdx_eraseIdx_getD _ _ hcw]
            rfl
          · unfold inferElemAt
            rw [queryAt_fst proof indices k (by omega)]
      rw [hebd]
      rw [ih (k + 1) (by omega)]
      simp only []
      congr 2
      -- the per-query record for k
      rw [← List.range_eq_range']
      congr 1
      congr 1
      congr 1
      apply List.map_congr_left
      intro i hi
      have hiR : i < R := List.mem_range.mp hi
      · rw [stepRecordAt_evals cmp proof indices params i k (by omega)]
        obtain ⟨hlen2, _⟩ := (hwf2 k hkn).2.2 i hiR
        have hcw : cosetIndex arity i (indices.getD k 0) <
            (stepEvalsAt proof indices k i).length := by
          rw [hlen2]
          exact Nat.mod_lt _ (Nat.pos_pow_of_pos _ (by omega))
        rw [show inferElemAt proof indices arity k i =
            (stepEvalsAt proof indices k i).getD
              (cosetIndex arity i (indices.getD k 0)) [] from ?_]
        · rw [insertIdx_eraseIdx_getD _ _ hcw]
          rfl
        · unfold inferElemAt
          rw [queryAt_fst proof indices k (by omega)]

end Fri

namespace Fri

theorem entryOrInsert_fold_cons {α : Type} (f : Nat → Nat) (g : Nat → α) :
    ∀ n, 0 < n → ∃ t, (List.range n).foldl (fun m k => entryOrInsert m (f k) (g k)) [] =
      (f 0, g 0) :: t := by
  intro n
  induction n with
  | zero => omega
  | succ n ih =>
    intro _
    rcases Nat.eq_zero_or_pos n with hn | hn
    · subst hn
      exact ⟨[], rfl⟩
    · obtain ⟨t, ht⟩ := ih hn
      rw [List.range_succ, List.foldl_append, ht]
      simp only [List.foldl_cons, List.foldl_nil]
      rw [entryOrInsert_eq]
      by_cases hc : (List.lookup (f n) ((f 0, g 0) :: t)).isSome
      · rw [if_pos hc]
        exact ⟨t, rfl⟩
      · rw [if_neg hc]
        exact ⟨t ++ [(f n, g n)], rfl⟩

theorem filterMap_if_all {α β : Type} (p : α → Prop) [DecidablePred p] (f : α → β) :
    ∀ l : List α, (∀ a ∈ l, p a) →
      l.filterMap (fun a => if p a then some (f a) else none) = l.map f := by
  intro l
  induction l with
  | nil => intro h; rfl
  | cons a t ih =>
    intro h
    rw [List.filterMap_cons, if_pos (h a (List.mem_cons_self a t))]
    simp only []
    rw [List.map_cons, ih (fun b hb => h b (List.mem_cons_of_mem a hb))]

theorem inferredElements_of_distinct {F MP Cap PolyC : Type} [Inhabited MP]
    (proof : FriProof F MP Cap PolyC) (indices : List Nat) (params : FriParams)
    (hlen : indices.length = proof.query_round_proofs.length)
    (hdis : distinctIndices indices params.reduction_arity_bits) :
    inferredElements proof indices params.reduction_arity_bits =
      ((List.range indices.length).map (fun k =>
        (List.range params.reduction_arity_bits.length).map (fun i =>
          inferElemAt proof indices params.reduction_arity_bits k i))).flatten := by
  unfold inferredElements
  rw [zippedQueries_length proof indices hlen]
  congr 1
  apply List.map_congr_left
  intro k hk
  have hk2 : k < indices.length := List.mem_range.mp hk
  apply filterMap_if_all
  intro i hi
  have hi2 : i < params.reduction_arity_bits.length := List.mem_range.mp hi
  intro j hj
  rw [queryAt_fst proof indices j (by rw [zippedQueries_length proof indices hlen]; omega),
    queryAt_fst proof indices k (by rw [zippedQueries_length proof indices hlen]; omega)]
  exact distinct_shifted indices params.reduction_arity_bits hdis i j k (by omega) hk2
    (by omega) (by omega)

theorem compressOk_of_wellFormed {F MP Cap PolyC : Type} [Inhabited MP]
    (proof : FriProof F MP Cap PolyC) (indices : List Nat) (params : FriParams) (D : Nat)
    (hwf : wellFormed proof indices params D) (hne : indices.length ≠ 0) :
    compressOk proof indices params := by
  obtain ⟨hlen, hwf2⟩ := hwf
  refine ⟨by omega, by omega, ?_⟩
  intro k hk
  have hzlen := zippedQueries_length proof indices hlen
  have hk2 : k < indices.length := by omega
  obtain ⟨h1, h2, h3⟩ := hwf2 k hk2
  refine ⟨h1, h2, ?_⟩
  intro i hi
  obtain ⟨hlen2, _⟩ := h3 i hi
  have he : (((zippedQueries proof indices).getD k default).2.steps.getD i default).evals
      = stepEvalsAt proof indices k i := rfl
  rw [he, hlen2]
  have hfst : ((zippedQueries proof indices).getD k default).1 = indices.getD k 0 :=
    queryAt_fst proof indices k (by omega)
  rw [hfst]
  unfold cosetIndex
  exact Nat.mod_lt _ (Nat.pos_pow_of_pos _ (by omega))

theorem initialIndicesRow_eq {F MP Cap PolyC : Type} (proof : FriProof F MP Cap PolyC)
    (indices : List Nat) (hlen : indices.length = proof.query_round_proofs.length) :
    initialIndicesRow proof indices = indices := by
  unfold initialIndicesRow zippedQueries
  exact List.map_fst_zip indices proof.query_round_proofs (by omega)

theorem stepsIndicesRow_eq {F MP Cap PolyC : Type} (proof : FriProof F MP Cap PolyC)
    (indices : List Nat) (arity : List Nat)
    (hlen : indices.length = proof.query_round_proofs.length) (i : Nat) :
    stepsIndicesRow proof indices arity i =
      (List.range indices.length).map (fun k => shiftedIndex arity i (indices.getD k 0)) := by
  unfold stepsIndicesRow
  apply List.ext_getElem
  · simp [zippedQueries, hlen]
  · intro k h1 h2
    simp only [zippedQueries, List.getElem_map, List.getElem_range, List.getElem_zip]
    congr 1
    rw [List.getD_eq_getElem _ _ (by
      simp only [List.length_map, List.length_zip, zippedQueries] at h1
      omega)]

end Fri

namespace Fri

/-- The per-query records produced by the decompression walk on a compressed
artifact whose indices were pairwise distinct (the right-hand side of
`decompressQueries_roundtrip`). -/
def roundtripRecords {F MP Cap PolyC : Type} [Inhabited MP]
    (cmp : Nat → List Nat → List MP → List MP) (proof : FriProof F MP Cap PolyC)
    (indices : List Nat) (params : FriParams) :
    List (Nat × FriInitialTreeProof F MP × List (Nat × List F × MP)) :=
  (List.range indices.length).map (fun k =>
    (indices.getD k 0, initialRecordAt cmp proof indices params k,
      (List.range params.reduction_arity_bits.length).map (fun i =>
        (shiftedIndex params.reduction_arity_bits i (indices.getD k 0),
          flatten (stepEvalsAt proof indices k i),
          (compressedStepsRow cmp proof indices params i).getD k default))))

theorem roundtripRecords_length {F MP Cap PolyC : Type} [Inhabited MP]
    (cmp : Nat → List Nat → List MP → List MP) (proof : FriProof F MP Cap PolyC)
    (indices : List Nat) (params : FriParams) :
    (roundtripRecords cmp proof indices params).length = indices.length := by
  simp [roundtripRecords]

theorem roundtripRecords_fst {F MP Cap PolyC : Type} [Inhabited MP]
    (cmp : Nat → List Nat → List MP → List MP) (proof : FriProof F MP Cap PolyC)
    (indices : List Nat) (params : FriParams) :
    (roundtripRecords cmp proof indices params).map (fun r => r.1) = indices := by
  unfold roundtripRecords
  rw [List.map_map]
  dsimp only [Function.comp_def]
  exact map_getD_range indices 0

theorem initialLeavesRowD_records {F MP Cap PolyC : Type} [Inhabited MP]
    (cmp : Nat → List Nat → List MP → List MP) (proof : FriProof F MP Cap PolyC)
    (indices : List Nat) (params : FriParams)
    (hlen : indices.length = proof.query_round_proofs.length)
    (t : Nat) (ht : t < numInitialTrees proof) :
    initialLeavesRowD (roundtripRecords cmp proof indices params) t =
      initialLeavesRow proof indices t := by
  unfold initialLeavesRowD roundtripRecords
  rw [List.map_map]
  dsimp only [Function.comp_def]
  have hrec : ∀ k : Nat,
      (((initialRecordAt cmp proof indices params k).evals_proofs.getD t default).1 :
        List F) = (initialLeavesRow proof indices t).getD k default := by
    intro k
    unfold initialRecordAt
    rw [getD_map_of_lt _ _ t (by simpa using ht) 0]
    rw [List.getD_eq_getElem (List.range _) _ (by simpa using ht)]
    simp only [List.getElem_range]
  rw [List.map_congr_left (fun k _ => hrec k)]
  rw [show indices.length = (initialLeavesRow proof indices t).length by
    simp [initialLeavesRow, zippedQueries, hlen]]
  exact map_getD_range _ default

theorem initialProofsRowD_records {F MP Cap PolyC : Type} [Inhabited MP]
    (cmp : Nat → List Nat → List MP → List MP) (proof : FriProof F MP Cap PolyC)
    (indices : List Nat) (params : FriParams)
    (hcmp : ∀ c is ps, (cmp c is ps).length = ps.length)
    (hlen : indices.length = proof.query_round_proofs.length)
    (t : Nat) (ht : t < numInitialTrees proof) :
    initialProofsRowD (roundtripRecords cmp proof indices params) t =
      compressedInitialRow cmp proof indices params t := by
  unfold initialProofsRowD roundtripRecords
  rw [List.map_map]
  dsimp only [Function.comp_def]
  have hrec : ∀ k : Nat,
      (((initialRecordAt cmp proof indices params k).evals_proofs.getD t default).2 : MP)
        = (compressedInitialRow cmp proof indices params t).getD k default := by
    intro k
    unfold initialRecordAt
    rw [getD_map_of_lt _ _ t (by simpa using ht) 0]
    rw [List.getD_eq_getElem (List.range _) _ (by simpa using ht)]
    simp only [List.getElem_range]
  rw [List.map_congr_left (fun k _ => hrec k)]
  rw [show indices.length = (compressedInitialRow cmp proof indices params t).length by
    rw [compressedInitialRow, hcmp]
    simp [initialProofsRow, zippedQueries, hlen]]
  exact map_getD_range _ default

theorem stepKeysRowD_records {F MP Cap PolyC : Type} [Inhabited F] [Inhabited MP]
    (cmp : Nat → List Nat → List MP → List MP) (proof : FriProof F MP Cap PolyC)
    (indices : List Nat) (params : FriParams)
    (i : Nat) (hi : i < params.reduction_arity_bits.length) :
    stepKeysRowD (roundtripRecords cmp proof indices params) i =
      (List.range indices.length).map
        (fun k => shiftedIndex params.reduction_arity_bits i (indices.getD k 0)) := by
  unfold stepKeysRowD roundtripRecords
  rw [List.map_map]
  dsimp only [Function.comp_def]
  apply List.map_congr_left
  intro k _
  rw [getD_map_of_lt _ _ i (by simpa using hi) 0]
  rw [List.getD_eq_getElem (List.range _) _ (by simpa using hi)]
  simp only [List.getElem_range]

theorem stepEvalsRowD_records {F MP Cap PolyC : Type} [Inhabited F] [Inhabited MP]
    (cmp : Nat → List Nat → List MP → List MP) (proof : FriProof F MP Cap PolyC)
    (indices : List Nat) (params : FriParams)
    (i : Nat) (hi : i < params.reduction_arity_bits.length) :
    stepEvalsRowD (roundtripRecords cmp proof indices params) i =
      (List.range indices.length).map
        (fun k => flatten (stepEvalsAt proof indices k i)) := by
  unfold stepEvalsRowD roundtripRecords
  rw [List.map_map]
  dsimp only [Function.comp_def]
  apply List.map_congr_left
  intro k _
  rw [getD_map_of_lt _ _ i (by simpa using hi) 0]
  rw [List.getD_eq_getElem (List.range _) _ (by simpa using hi)]
  simp only [List.getElem_range]

theorem stepProofsRowD_records {F MP Cap PolyC : Type} [Inhabited F] [Inhabited MP]
    (cmp : Nat → List Nat → List MP → List MP) (proof : FriProof F MP Cap PolyC)
    (indices : List Nat) (params : FriParams)
    (hcmp : ∀ c is ps, (cmp c is ps).length = ps.length)
    (hlen : indices.length = proof.query_round_proofs.length)
    (i : Nat) (hi : i < params.reduction_arity_bits.length) :
    stepProofsRowD (roundtripRecords cmp proof indices params) i =
      compressedStepsRow cmp proof indices params i := by
  unfold stepProofsRowD roundtripRecords
  rw [List.map_map]
  dsimp only [Function.comp_def]
  have hstep : ∀ k : Nat, k ∈ List.range indices.length →
      ((((List.range params.reduction_arity_bits.length).map (fun i2 =>
        (shiftedIndex params.reduction_arity_bits i2 (indices.getD k 0),
          flatten (stepEvalsAt proof indices k i2),
          (compressedStepsRow cmp proof indices params i2).getD k default))).getD i
            default).2.2 : MP)
        = (compressedStepsRow cmp proof indices params i).getD k default := by
    intro k _
    rw [getD_map_of_lt _ _ i (by simpa using hi) 0]
    rw [List.getD_eq_getElem (List.range _) _ (by simpa using hi)]
    simp only [List.getElem_range]
  rw [List.map_congr_left hstep]
  rw [show indices.length = (compressedStepsRow cmp proof indices params i).length by
    rw [compressedStepsRow, hcmp]
    simp [stepsProofsRow, zippedQueries, hlen]]
  exact map_getD_range _ default

end Fri

namespace Fri

theorem decompressedInitialRow_records {F MP Cap PolyC : Type} [Inhabited F] [Inhabited MP]
    (cmp : Nat → List Nat → List MP → List MP)
    (dmp : List (List F) → List Nat → List MP → Nat → Nat → List MP)
    (proof : FriProof F MP Cap PolyC) (indices : List Nat) (params : FriParams)
    (hcmp : ∀ c is ps, (cmp c is ps).length = ps.length)
    (hdmp : ∀ ls is ps h c, dmp ls is (cmp c is ps) h c = ps)
    (hlen : indices.length = proof.query_round_proofs.length)
    (t : Nat) (ht : t < numInitialTrees proof) :
    decompressedInitialRow dmp params (roundtripRecords cmp proof indices params) t =
      initialProofsRow proof indices t := by
  unfold decompressedInitialRow
  rw [roundtripRecords_fst, initialProofsRowD_records cmp proof indices params hcmp hlen t ht]
  rw [compressedInitialRow, initialIndicesRow_eq proof indices hlen]
  exact hdmp _ _ _ _ _

theorem decompressedStepsRow_records {F MP Cap PolyC : Type} [Inhabited F] [Inhabited MP]
    (cmp : Nat → List Nat → List MP → List MP)
    (dmp : List (List F) → List Nat → List MP → Nat → Nat → List MP)
    (proof : FriProof F MP Cap PolyC) (indices : List Nat) (params : FriParams)
    (hcmp : ∀ c is ps, (cmp c is ps).length = ps.length)
    (hdmp : ∀ ls is ps h c, dmp ls is (cmp c is ps) h c = ps)
    (hlen : indices.length = proof.query_round_proofs.length)
    (i : Nat) (hi : i < params.reduction_arity_bits.length) :
    decompressedStepsRow dmp params (roundtripRecords cmp proof indices params) i =
      stepsProofsRow proof indices params.reduction_arity_bits i := by
  unfold decompressedStepsRow
  rw [stepKeysRowD_records cmp proof indices params i hi,
    stepProofsRowD_records cmp proof indices params hcmp hlen i hi]
  rw [compressedStepsRow, stepsIndicesRow_eq proof indices params.reduction_arity_bits hlen i]
  exact hdmp _ _ _ _ _

theorem rebuildRounds_roundtrip {F MP Cap PolyC : Type} [Inhabited F] [Inhabited MP]
    (cmp : Nat → List Nat → List MP → List MP)
    (dmp : List (List F) → List Nat → List MP → Nat → Nat → List MP)
    (D : Nat) (proof : FriProof F MP Cap PolyC) (indices : List Nat) (params : FriParams)
    (hwf : wellFormed proof indices params D) (hD : 0 < D)
    (hcmp : ∀ c is ps, (cmp c is ps).length = ps.length)
    (hdmp : ∀ ls is ps h c, dmp ls is (cmp c is ps) h c = ps) :
    rebuildRounds dmp D params (numInitialTrees proof)
        (roundtripRecords cmp proof indices params) = proof.query_round_proofs := by
  obtain ⟨hlen, hwf2⟩ := hwf
  unfold rebuildRounds
  rw [roundtripRecords_length]
  apply List.ext_getElem
  · simp [hlen]
  · intro k h1 h2
    simp only [List.getElem_map, List.getElem_range]
    have hk : k < indices.length := by simpa using h1
    have hzk : k < (zippedQueries proof indices).length := by
      rw [zippedQueries_length proof indices hlen]
      omega
    obtain ⟨hT, hR, hev⟩ := hwf2 k hk
    have hinit : ∀ t ∈ List.range (numInitialTrees proof),
        (((initialLeavesRowD (roundtripRecords cmp proof indices params) t).getD k default :
            List F),
          ((decompressedInitialRow dmp params (roundtripRecords cmp proof indices params)
            t).getD k default : MP)) =
          (queryAt proof indices k).2.initial_trees_proof.evals_proofs.getD t default := by
      intro t ht
      have ht2 : t < numInitialTrees proof := List.mem_range.mp ht
      rw [initialLeavesRowD_records cmp proof indices params hlen t ht2]
      rw [decompressedInitialRow_records cmp dmp proof indices params hcmp hdmp hlen t ht2]
      unfold initialLeavesRow initialProofsRow
      rw [getD_map_of_lt _ _ k hzk default, getD_map_of_lt _ _ k hzk default]
      exact Prod.mk.eta
    have hsteps : ∀ i ∈ List.range params.reduction_arity_bits.length,
        (⟨unflatten D ((stepEvalsRowD (roundtripRecords cmp proof indices params) i).getD k
            default),
          (decompressedStepsRow dmp params (roundtripRecords cmp proof indices params)
            i).getD k default⟩ : FriQueryStep F MP) =
          (queryAt proof indices k).2.steps.getD i default := by
      intro i hi
      have hi2 : i < params.reduction_arity_bits.length := List.mem_range.mp hi
      rw [stepEvalsRowD_records cmp proof indices params i hi2]
      rw [decompressedStepsRow_records cmp dmp proof indices params hcmp hdmp hlen i hi2]
      rw [getD_map_of_lt _ (List.range indices.length) k (by simpa using hk) 0]
      rw [List.getD_eq_getElem (List.range _) _ (by simpa using hk)]
      simp only [List.getElem_range]
      rw [unflatten_flatten D hD _ (hev i hi2).2]
      unfold stepsProofsRow
      rw [getD_map_of_lt _ _ k hzk default]
      rfl
    rw [List.map_congr_left hinit, List.map_congr_left hsteps]
    rw [show numInitialTrees proof =
      (queryAt proof indices k).2.initial_trees_proof.evals_proofs.length from hT.symm]
    rw [show params.reduction_arity_bits.length =
      (queryAt proof indices k).2.steps.length from hR.symm]
    rw [map_getD_range _ default, map_getD_range _ default]
    show (queryAt proof indices k).2 = proof.query_round_proofs[k]
    unfold queryAt zippedQueries
    rw [List.getD_eq_getElem _ _ (by simpa [zippedQueries] using hzk)]
    rw [List.getElem_zip]

end Fri

namespace Fri

set_option maxHeartbeats 1000000 in
/-- C1 (amended): for a well-formed `FriProof` whose query indices remain
pairwise distinct under the full sequence of reduction shifts, with at least
one query, positive extension degree, a length-preserving
`compress_merkle_proofs` and a `decompress_merkle_proofs` that is its left
inverse, `compress` succeeds and `decompress` — fed the same ordered indices
and the inferred-elements stream — returns a `FriProof` structurally equal to
the original. -/
theorem compress_decompress_roundtrip {F MP Cap PolyC : Type} [Inhabited F] [Inhabited MP]
    (cmp : Nat → List Nat → List MP → List MP)
    (dmp : List (List F) → List Nat → List MP → Nat → Nat → List MP)
    (D : Nat) (proof : FriProof F MP Cap PolyC) (indices : List Nat) (params : FriParams)
    (hwf : wellFormed proof indices params D)
    (hdis : distinctIndices indices params.reduction_arity_bits)
    (hne : indices.length ≠ 0) (hD : 0 < D)
    (hcmp : ∀ c is ps, (cmp c is ps).length = ps.length)
    (hdmp : ∀ ls is ps h c, dmp ls is (cmp c is ps) h c = ps) :
    ∃ C, compress cmp proof indices params = some C ∧
      decompress dmp D C ⟨indices⟩
        (inferredElements proof indices params.reduction_arity_bits) params = some proof := by
  have hok := compressOk_of_wellFormed proof indices params D hwf hne
  have hlen := hwf.1
  refine ⟨⟨proof.commit_phase_merkle_caps,
    ⟨indices, initialMap cmp proof indices params,
      (List.range params.reduction_arity_bits.length).map
        (stepsMapAt cmp proof indices params)⟩,
    proof.final_poly, proof.pow_witness⟩, ?_, ?_⟩
  · unfold compress
    rw [if_pos hok]
  · obtain ⟨tl, htl⟩ := entryOrInsert_fold_cons (fun k => indices.getD k 0)
      (fun k => initialRecordAt cmp proof indices params k) indices.length (by omega)
    have hIM : initialMap cmp proof indices params =
        (indices.getD 0 0, initialRecordAt cmp proof indices params 0) :: tl := htl
    have hround := decompressQueries_roundtrip cmp proof indices params D hwf hdis
      indices.length 0 (by omega)
    rw [List.drop_zero] at hround
    rw [← List.range_eq_range'] at hround
    simp only [List.range_zero, List.map_nil] at hround
    have hrep : (List.range params.reduction_arity_bits.length).map
        (fun _ => ([] : List (Nat × List (List F)))) =
        List.replicate params.reduction_arity_bits.length [] := by
      simp [List.map_const']
    rw [hrep] at hround
    have hinf := inferredElements_of_distinct proof indices params hlen hdis
    rw [← hinf] at hround
    rw [hIM] at hround
    rw [hIM]
    unfold decompress
    simp only []
    rw [if_pos (by simp : params.reduction_arity_bits.length ≤
      ((List.range params.reduction_arity_bits.length).map
        (stepsMapAt cmp proof indices params)).length)]
    rw [List.take_of_length_le (by simp)]
    have hT0 : (initialRecordAt cmp proof indices params 0).evals_proofs.length =
        numInitialTrees proof := by
      unfold initialRecordAt
      simp
    rw [hT0]
    rw [hround]
    simp only []
    have hrr := rebuildRounds_roundtrip cmp dmp D proof indices params hwf hD hcmp hdmp
    unfold roundtripRecords at hrr
    rw [hrr]

end Fri

namespace Fri

instance {F MP Cap PolyC : Type} [Inhabited MP] [DecidableEq F] [DecidableEq MP]
    (proof : FriProof F MP Cap PolyC) (indices : List Nat) (params : FriParams) (D : Nat) :
    Decidable (wellFormed proof indices params D) := by
  unfold wellFormed
  infer_instance

/-- Concrete two-query proof whose indices `0` and `1` collide after the
single 1-bit reduction shift (`0 >>> 1 = 1 >>> 1`). -/
def exProofC1 : FriProof Nat Nat Nat Nat :=
  ⟨[42], [⟨⟨[([5], 100)]⟩, [⟨[[1], [2]], 7⟩]⟩, ⟨⟨[([6], 101)]⟩, [⟨[[3], [4]], 8⟩]⟩], 99, 3⟩

/-- Parameters with a single 1-bit reduction. -/
def exParamsC1 : FriParams := ⟨⟨1, 0⟩, [1], 3⟩

/-- Concrete single-query proof for the round-trip witness. -/
def exProofC1W : FriProof Nat Nat Nat Nat :=
  ⟨[42], [⟨⟨[([5], 100)]⟩, [⟨[[1], [2]], 7⟩]⟩], 99, 3⟩

/-- C1 (counterexample to the claim as stated): the claim's hypotheses hold —
the two-query proof is well formed and the identity `decompress_merkle_proofs`
is a left inverse of the identity `compress_merkle_proofs` — yet decompressing
the compression is not the original proof: the indices `0` and `1` coincide
after the depth-0 shift, so `steps[0]` keeps only the first query's record
(first writer wins) and the second query is rebuilt from the wrong data. -/
theorem compress_decompress_roundtrip_fails_on_collision :
    wellFormed exProofC1 [0, 1] exParamsC1 1 ∧
    (∀ (ls : List (List Nat)) (is ps : List Nat) (h c : Nat),
      (fun (_ : List (List Nat)) (_ : List Nat) (ps : List Nat) (_ _ : Nat) => ps) ls is
        ((fun (_ : Nat) (_ : List Nat) (ps : List Nat) => ps) c is ps) h c = ps) ∧
    (compress (fun (_ : Nat) (_ : List Nat) (ps : List Nat) => ps) exProofC1 [0, 1]
        exParamsC1).bind
      (fun C => decompress
        (fun (_ : List (List Nat)) (_ : List Nat) (ps : List Nat) (_ _ : Nat) => ps) 1 C
        ⟨[0, 1]⟩ (inferredElements exProofC1 [0, 1] exParamsC1.reduction_arity_bits)
        exParamsC1) ≠ some exProofC1 := by
  refine ⟨by decide, fun _ _ _ _ _ => rfl, by decide⟩

/-- Witness for `compress_decompress_roundtrip` at a concrete single-query
proof with identity Merkle-path collaborators. -/
theorem compress_decompress_roundtrip_witness :
    ∃ C, compress (fun (_ : Nat) (_ : List Nat) (ps : List Nat) => ps) exProofC1W [0]
        exParamsC1 = some C ∧
      decompress (fun (_ : List (List Nat)) (_ : List Nat) (ps : List Nat) (_ _ : Nat) => ps)
        1 C ⟨[0]⟩ (inferredElements exProofC1W [0] exParamsC1.reduction_arity_bits)
        exParamsC1 = some exProofC1W :=
  compress_decompress_roundtrip _ _ 1 exProofC1W [0] exParamsC1 (by decide)
    (by
      intro k k2 hk hk2 hne2
      simp only [List.length_cons, List.length_nil] at hk hk2
      omega)
    (by decide) (by decide)
    (fun _ _ _ => rfl) (fun _ _ _ _ _ => rfl)

end Fri

namespace Fri

/-- Modelled from the claim's words: `h₀ = degree_bits + rate_bits`,
`h_{i+1} = h_i − reduction_arity_bits[i]` — `specHeight params i` is the tree
height after `i` reductions. -/
def specHeight (params : FriParams) : Nat → Nat
  | 0 => params.degree_bits + params.config.rate_bits
  | i + 1 => specHeight params i - params.reduction_arity_bits.getD i 0

theorem friHeights_foldl (l : List Nat) :
    ∀ (h : Nat) (acc : List Nat),
      (l.foldl (fun (a : Nat × List Nat) bits => (a.1 - bits, a.2 ++ [a.1 - bits]))
        (h, acc)).2 =
        acc ++ (List.range l.length).map (fun i => h - (l.take (i + 1)).sum) := by
  induction l with
  | nil => intro h acc; simp
  | cons b t ih =>
    intro h acc
    rw [List.foldl_cons]
    simp only []
    rw [ih (h - b) (acc ++ [h - b])]
    rw [List.append_assoc]
    congr 1
    rw [List.singleton_append, List.length_cons, List.range_succ_eq_map, List.map_cons,
      List.map_map]
    congr 1
    apply List.map_congr_left
    simp only [Function.comp_apply, Nat.succ_eq_add_one, List.take_succ_cons, List.sum_cons,
      List.mem_range]
    intro a ha
    omega

theorem friHeights_eq (params : FriParams) :
    friHeights params = (List.range params.reduction_arity_bits.length).map
      (fun i => params.degree_bits + params.config.rate_bits -
        sumArityBefore params.reduction_arity_bits (i + 1)) := by
  unfold friHeights
  rw [friHeights_foldl]
  simp only [List.nil_append, sumArityBefore]

theorem specHeight_eq (params : FriParams) :
    ∀ i, i ≤ params.reduction_arity_bits.length →
      specHeight params i = params.degree_bits + params.config.rate_bits -
        sumArityBefore params.reduction_arity_bits i := by
  intro i
  induction i with
  | zero => intro _; simp [specHeight, sumArityBefore]
  | succ i ih =>
    intro hi
    show specHeight params i - params.reduction_arity_bits.getD i 0 = _
    rw [ih (by omega), sumArityBefore_succ params.reduction_arity_bits i (by omega)]
    omega

end Fri

namespace Fri

/-- C6 (counterexample to the claim as stated): with `degree_bits = 3`,
`rate_bits = 1` and a single 4-ary reduction (`arity_bits = [2]`), the code's
heights scan yields `heights[0] = 2`, which is `h₁` of the claim's own
recurrence, not the claimed `h₀ = 4`: the scan subtracts `arity_bits[i]`
before yielding, so depth-`i` step proofs are decompressed at the height
after `i + 1` reductions. -/
theorem friHeights_off_by_one :
    (friHeights ⟨⟨1, 0⟩, [2], 3⟩).getD 0 0 ≠ specHeight ⟨⟨1, 0⟩, [2], 3⟩ 0 ∧
    (friHeights ⟨⟨1, 0⟩, [2], 3⟩).getD 0 0 = specHeight ⟨⟨1, 0⟩, [2], 3⟩ 1 := by
  decide

/-- C6 (amended): with `h` the claim's recurrence
(`h₀ = degree_bits + rate_bits`, `h_{i+1} = h_i − arity_bits[i]`), the
initial-tree `decompress_merkle_proofs` calls use height `h₀` as claimed, the
heights list has one entry per reduction, but the height passed for the
depth-`i` step proofs is `h_{i+1}` — the height after `i + 1` reductions —
not `h_i`. -/
theorem decompress_heights (params : FriParams) :
    specHeight params 0 = params.degree_bits + params.config.rate_bits ∧
    (friHeights params).length = params.reduction_arity_bits.length ∧
    ∀ i < params.reduction_arity_bits.length,
      (friHeights params).getD i 0 = specHeight params (i + 1) := by
  refine ⟨rfl, ?_, ?_⟩
  · rw [friHeights_eq]
    simp
  · intro i hi
    rw [friHeights_eq]
    rw [getD_map_of_lt _ _ i (by simpa using hi) 0]
    rw [List.getD_eq_getElem (List.range _) _ (by simpa using hi)]
    simp only [List.getElem_range]
    rw [specHeight_eq params (i + 1) (by omega)]

/-- Witness for `decompress_heights` at `degree_bits = 3`, `rate_bits = 1`,
`arity_bits = [2, 1]`. -/
theorem decompress_heights_witness :
    specHeight ⟨⟨1, 0⟩, [2, 1], 3⟩ 0 = 3 + 1 ∧
    (friHeights ⟨⟨1, 0⟩, [2, 1], 3⟩).getD 0 0 = specHeight ⟨⟨1, 0⟩, [2, 1], 3⟩ 1 ∧
    (friHeights ⟨⟨1, 0⟩, [2, 1], 3⟩).getD 1 0 = specHeight ⟨⟨1, 0⟩, [2, 1], 3⟩ 2 :=
  ⟨(decompress_heights ⟨⟨1, 0⟩, [2, 1], 3⟩).1,
    (decompress_heights ⟨⟨1, 0⟩, [2, 1], 3⟩).2.2 0 (by decide),
    (decompress_heights ⟨⟨1, 0⟩, [2, 1], 3⟩).2.2 1 (by decide)⟩

end Fri

namespace Fri

theorem lookup_append_some {α : Type} (m m2 : List (Nat × α)) (k : Nat) (v : α)
    (h : List.lookup k m = some v) : List.lookup k (m ++ m2) = some v := by
  rw [List.lookup_append, h]
  rfl

set_option maxHeartbeats 1000000 in
/-- Inversion principle for a successful `decompressSteps` walk: each depth's
output row carries the running index as key, evaluations present in the
returned per-depth map under that key, and the Merkle proof of the step
looked up in `steps[j]`; the returned maps conservatively extend the input
ones. -/
theorem decompressSteps_spec {F MP : Type} [Inhabited F] [Inhabited MP]
    (R : Nat) (arity : List Nat) (Ms : List (List (Nat × FriQueryStep F MP)))
    (idx0 : Nat) (hA : arity.length = R) (hM : Ms.length = R) :
    ∀ len i (Eb : List (List (Nat × List (List F)))) (stream : List (List F)) out stream2,
      i + len = R → Eb.length = R →
      decompressSteps ((arity.drop i).zip ((Ms.drop i).zip (Eb.drop i)))
          (idx0 >>> sumArityBefore arity i) stream = some (out, stream2) →
      out.length = len ∧
      ∀ j, i ≤ j → j < R →
        ∃ st v,
          List.lookup (idx0 >>> sumArityBefore arity (j + 1)) (Ms.getD j []) = some st ∧
          List.lookup (idx0 >>> sumArityBefore arity (j + 1)) ((out.getD (j - i) default).2)
            = some v ∧
          (out.getD (j - i) default).1 =
            (idx0 >>> sumArityBefore arity (j + 1), flatten v, st.merkle_proof) ∧
          (∀ k w, List.lookup k (Eb.getD j []) = some w →
            List.lookup k ((out.getD (j - i) default).2) = some w) := by
  intro len
  induction len with
  | zero =>
    intro i Eb stream out stream2 hi hEb h
    rw [List.drop_eq_nil_of_le (by omega)] at h
    have hz : ([] : List Nat).zip ((Ms.drop i).zip (Eb.drop i)) = [] := rfl
    rw [hz, decompressSteps] at h
    refine ⟨?_, ?_⟩
    · cases h
      rfl
    · intro j hj1 hj2
      omega
  | succ len ih =>
    intro i Eb stream out stream2 hi hEb h
    have hiR : i < R := by omega
    have hdA : arity.drop i = arity.getD i 0 :: arity.drop (i + 1) := by
      rw [List.drop_eq_getElem_cons (by omega), List.getD_eq_getElem _ _ (by omega)]
    have hdM : Ms.drop i = Ms.getD i [] :: Ms.drop (i + 1) := by
      rw [List.drop_eq_getElem_cons (by omega), List.getD_eq_getElem _ _ (by omega)]
    have hdE : Eb.drop i = Eb.getD i [] :: Eb.drop (i + 1) := by
      rw [List.drop_eq_getElem_cons (by omega), List.getD_eq_getElem _ _ (by omega)]
    rw [hdA, hdM, hdE, List.zip_cons_cons, List.zip_cons_cons, decompressSteps] at h
    have hshift : idx0 >>> sumArityBefore arity i >>> arity.getD i 0 =
        idx0 >>> sumArityBefore arity (i + 1) :=
      shiftedIndex_chain arity i idx0 (by omega)
    rw [hshift] at h
    rcases hMl : List.lookup (idx0 >>> sumArityBefore arity (i + 1)) (Ms.getD i []) with
      _ | st
    · rw [hMl] at h
      exact absurd h (by simp)
    · rw [hMl] at h
      simp only [] at h
      rcases hEl : List.lookup (idx0 >>> sumArityBefore arity (i + 1)) (Eb.getD i []) with
        _ | v
      · -- fresh key: consume one inferred element
        rw [hEl] at h
        simp only [] at h
        rcases stream with _ | ⟨e, stream1⟩
        · exact absurd h (by simp)
        · simp only [] at h
          by_cases hcw : idx0 >>> sumArityBefore arity i % 2 ^ arity.getD i 0 ≤
              st.evals.length
          · rw [if_pos hcw] at h
            rcases hrec : decompressSteps ((arity.drop (i + 1)).zip
                ((Ms.drop (i + 1)).zip (Eb.drop (i + 1))))
                (idx0 >>> sumArityBefore arity (i + 1)) stream1 with _ | ⟨out', s2'⟩
            · rw [hrec] at h
              exact absurd h (by simp)
            · rw [hrec] at h
              simp only [Option.some.injEq, Prod.mk.injEq] at h
              obtain ⟨hout, hs2⟩ := h
              obtain ⟨hlen', hrows'⟩ := ih (i + 1) Eb stream1 out' s2' (by omega) hEb hrec
              refine ⟨by rw [← hout]; simp [hlen'], ?_⟩
              intro j hj1 hj2
              rcases Nat.eq_or_lt_of_le hj1 with hji | hji
              · subst hji
                refine ⟨st, st.evals.insertIdx
                  (idx0 >>> sumArityBefore arity i % 2 ^ arity.getD i 0) e, hMl, ?_, ?_, ?_⟩
                · rw [← hout]
                  simp only [Nat.sub_self, List.getD_cons_zero]
                  rw [List.lookup_append, hEl]
                  simp [List.lookup]
                · rw [← hout]
                  simp only [Nat.sub_self, List.getD_cons_zero]
                · intro k w hkw
                  rw [← hout]
                  simp only [Nat.sub_self, List.getD_cons_zero]
                  exact lookup_append_some _ _ _ _ hkw
              · obtain ⟨st2, v2, h1, h2, h3, h4⟩ := hrows' j (by omega) hj2
                refine ⟨st2, v2, h1, ?_, ?_, ?_⟩
                · rw [← hout]
                  rw [show j - i = (j - (i + 1)) + 1 by omega, List.getD_cons_succ]
                  exact h2
                · rw [← hout]
                  rw [show j - i = (j - (i + 1)) + 1 by omega, List.getD_cons_succ]
                  exact h3
                · rw [← hout]
                  rw [show j - i = (j - (i + 1)) + 1 by omega, List.getD_cons_succ]
                  exact h4
          · rw [if_neg hcw] at h
            exact absurd h (by simp)
      · -- key already reconstructed: reuse the stored evaluations
        rw [hEl] at h
        simp only [] at h
        rcases hrec : decompressSteps ((arity.drop (i + 1)).zip
            ((Ms.drop (i + 1)).zip (Eb.drop (i + 1))))
            (idx0 >>> sumArityBefore arity (i + 1)) stream with _ | ⟨out', s2'⟩
        · rw [hrec] at h
          exact absurd h (by simp)
        · rw [hrec] at h
          simp only [Option.some.injEq, Prod.mk.injEq] at h
          obtain ⟨hout, hs2⟩ := h
          obtain ⟨hlen', hrows'⟩ := ih (i + 1) Eb stream out' s2' (by omega) hEb hrec
          refine ⟨by rw [← hout]; simp [hlen'], ?_⟩
          intro j hj1 hj2
          rcases Nat.eq_or_lt_of_le hj1 with hji | hji
          · subst hji
            refine ⟨st, v, hMl, ?_, ?_, ?_⟩
            · rw [← hout]
              simp only [Nat.sub_self, List.getD_cons_zero]
              exact hEl
            · rw [← hout]
              simp only [Nat.sub_self, List.getD_cons_zero]
            · intro k w hkw
              rw [← hout]
              simp only [Nat.sub_self, List.getD_cons_zero]
              exact hkw
          · obtain ⟨st2, v2, h1, h2, h3, h4⟩ := hrows' j (by omega) hj2
            refine ⟨st2, v2, h1, ?_, ?_, ?_⟩
            · rw [← hout]
              rw [show j - i = (j - (i + 1)) + 1 by omega, List.getD_cons_succ]
              exact h2
            · rw [← hout]
              rw [show j - i = (j - (i + 1)) + 1 by omega, List.getD_cons_succ]
              exact h3
            · rw [← hout]
              rw [show j - i = (j - (i + 1)) + 1 by omega, List.getD_cons_succ]
              exact h4

end Fri

namespace Fri

/-- The step row the decompression walk emits for a key that is already
present in `evals_by_depth`: stored evaluations flattened, Merkle proof from
the `steps[i]` map. -/
def canonStepRow {F MP : Type} [Inhabited F] [Inhabited MP]
    (SM : List (List (Nat × FriQueryStep F MP))) (arity : List Nat)
    (ebd : List (List (Nat × List (List F)))) (idx i : Nat) : Nat × List F × MP :=
  (shiftedIndex arity i idx,
    flatten ((List.lookup (shiftedIndex arity i idx) (ebd.getD i [])).getD []),
    ((List.lookup (shiftedIndex arity i idx) (SM.getD i [])).getD default).merkle_proof)

set_option maxHeartbeats 1000000 in
/-- Walking the reduction depths for one query whose every post-shift key is
already reconstructed (`evals_by_depth` hit at every depth): no inferred
element is consumed, the stored evaluations are replayed, and the per-depth
maps are returned unchanged. -/
theorem decompressSteps_all_hit {F MP : Type} [Inhabited F] [Inhabited MP]
    (R : Nat) (arity : List Nat) (Ms : List (List (Nat × FriQueryStep F MP)))
    (idx0 : Nat) (hA : arity.length = R) (hM : Ms.length = R) :
    ∀ len i (Eb : List (List (Nat × List (List F)))) (stream : List (List F)),
      i + len = R → Eb.length = R →
      (∀ j, i ≤ j → j < R →
        (List.lookup (shiftedIndex arity j idx0) (Ms.getD j [])).isSome ∧
        (List.lookup (shiftedIndex arity j idx0) (Eb.getD j [])).isSome) →
      decompressSteps ((arity.drop i).zip ((Ms.drop i).zip (Eb.drop i)))
          (idx0 >>> sumArityBefore arity i) stream =
        some ((List.range' i len).map (fun j =>
          (canonStepRow Ms arity Eb idx0 j, Eb.getD j [])), stream) := by
  intro len
  induction len with
  | zero =>
    intro i Eb stream hi hEb hcond
    rw [List.drop_eq_nil_of_le (by omega)]
    have hz : ([] : List Nat).zip ((Ms.drop i).zip (Eb.drop i)) = [] := rfl
    rw [hz]
    simp [decompressSteps, List.range']
  | succ len ih =>
    intro i Eb stream hi hEb hcond
    have hiR : i < R := by omega
    have hdA : arity.drop i = arity.getD i 0 :: arity.drop (i + 1) := by
      rw [List.drop_eq_getElem_cons (by omega), List.getD_eq_getElem _ _ (by omega)]
    have hdM : Ms.drop i = Ms.getD i [] :: Ms.drop (i + 1) := by
      rw [List.drop_eq_getElem_cons (by omega), List.getD_eq_getElem _ _ (by omega)]
    have hdE : Eb.drop i = Eb.getD i [] :: Eb.drop (i + 1) := by
      rw [List.drop_eq_getElem_cons (by omega), List.getD_eq_getElem _ _ (by omega)]
    rw [hdA, hdM, hdE, List.zip_cons_cons, List.zip_cons_cons]
    have hrange : List.range' i (len + 1) = i :: List.range' (i + 1) len := by
      simp [List.range']
    rw [hrange, List.map_cons]
    obtain ⟨hMs, hEbs⟩ := hcond i (le_refl i) hiR
    rcases Option.isSome_iff_exists.mp hMs with ⟨st, hst⟩
    rcases Option.isSome_iff_exists.mp hEbs with ⟨v, hv⟩
    have hshift : idx0 >>> sumArityBefore arity i >>> arity.getD i 0 =
        idx0 >>> sumArityBefore arity (i + 1) :=
      shiftedIndex_chain arity i idx0 (by omega)
    have hst2 : List.lookup (idx0 >>> sumArityBefore arity (i + 1)) (Ms.getD i [])
        = some st := hst
    have hv2 : List.lookup (idx0 >>> sumArityBefore arity (i + 1)) (Eb.getD i [])
        = some v := hv
    show decompressSteps _ _ _ = _
    rw [decompressSteps]
    rw [hshift, hst2, hv2]
    simp only []
    rw [ih (i + 1) Eb stream (by omega) hEb
      (fun j hj1 hj2 => hcond j (by omega) hj2)]
    unfold canonStepRow
    rw [hst, hv]
    simp only [Option.getD_some]
    rfl

end Fri

namespace Fri

/-- A per-query record has been registered: its index keys resolve in the
`steps` maps and in `evals_by_depth` at every depth, and the record is the
canonical one determined by those lookups (what a replay of the walk for the
same index would emit). -/
def emitted {F MP : Type} [Inhabited F] [Inhabited MP]
    (IT : List (Nat × FriInitialTreeProof F MP)) (SM : List (List (Nat × FriQueryStep F MP)))
    (arity : List Nat) (ebd : List (List (Nat × List (List F)))) (idx : Nat)
    (rec : Nat × FriInitialTreeProof F MP × List (Nat × List F × MP)) : Prop :=
  rec.1 = idx ∧
  List.lookup idx IT = some rec.2.1 ∧
  (∀ i < arity.length,
    (List.lookup (shiftedIndex arity i idx) (SM.getD i [])).isSome ∧
    (List.lookup (shiftedIndex arity i idx) (ebd.getD i [])).isSome) ∧
  rec.2.2 = (List.range arity.length).map (fun i => canonStepRow SM arity ebd idx i)

theorem emitted_mono {F MP : Type} [Inhabited F] [Inhabited MP]
    (IT : List (Nat × FriInitialTreeProof F MP)) (SM : List (List (Nat × FriQueryStep F MP)))
    (arity : List Nat) (ebd ebd2 : List (List (Nat × List (List F)))) (idx : Nat)
    (rec : Nat × FriInitialTreeProof F MP × List (Nat × List F × MP))
    (h : emitted IT SM arity ebd idx rec)
    (hmono : ∀ i < arity.length, ∀ k w, List.lookup k (ebd.getD i []) = some w →
      List.lookup k (ebd2.getD i []) = some w) :
    emitted IT SM arity ebd2 idx rec := by
  obtain ⟨h1, h2, h3, h4⟩ := h
  refine ⟨h1, h2, ?_, ?_⟩
  · intro i hi
    obtain ⟨hms, heb⟩ := h3 i hi
    rcases Option.isSome_iff_exists.mp heb with ⟨v, hv⟩
    refine ⟨hms, ?_⟩
    rw [hmono i hi _ _ hv]
    rfl
  · rw [h4]
    apply List.map_congr_left
    intro i hi
    have hi2 : i < arity.length := List.mem_range.mp hi
    obtain ⟨hms, heb⟩ := h3 i hi2
    rcases Option.isSome_iff_exists.mp heb with ⟨v, hv⟩
    unfold canonStepRow
    rw [hv, hmono i hi2 _ _ hv]

end Fri

namespace Fri

set_option maxHeartbeats 2000000 in
/-- The decompression walk over the queried indices: every emitted record is
replayable (a later query with the same index yields the same record), so
positions carrying duplicate indices receive identical records. -/
theorem decompressQueries_dup {F MP : Type} [Inhabited F] [Inhabited MP]
    (IT : List (Nat × FriInitialTreeProof F MP)) (SM : List (List (Nat × FriQueryStep F MP)))
    (arity : List Nat) (T : Nat) (hSM : SM.length = arity.length) :
    ∀ (idxs : List Nat) (ebd : List (List (Nat × List (List F)))) (stream : List (List F))
      out stream2,
      ebd.length = arity.length →
      decompressQueries IT SM arity T idxs ebd stream = some (out, stream2) →
      out.length = idxs.length ∧
      (∀ rec0 idx0, emitted IT SM arity ebd idx0 rec0 →
        ∀ b, b < idxs.length → idxs.getD b 0 = idx0 → out.getD b default = rec0) ∧
      (∀ a b, a < b → b < idxs.length → idxs.getD a 0 = idxs.getD b 0 →
        out.getD a default = out.getD b default) := by
  intro idxs
  induction idxs with
  | nil =>
    intro ebd stream out stream2 hebd h
    rw [decompressQueries] at h
    simp only [Option.some.injEq, Prod.mk.injEq] at h
    obtain ⟨h1, h2⟩ := h
    refine ⟨by rw [← h1]; rfl, ?_, ?_⟩
    · intro rec0 idx0 hem b hb
      simp at hb
    · intro a b hab hb
      simp at hb
  | cons idx rest ih =>
    intro ebd stream out stream2 hebd h
    rw [decompressQueries] at h
    rcases hIT : List.lookup idx IT with _ | itp
    · rw [hIT] at h
      exact absurd h (by simp)
    · rw [hIT] at h
      simp only [] at h
      by_cases hTc : itp.evals_proofs.length = T
      · rw [if_pos hTc] at h
        rcases hsteps : decompressSteps (arity.zip (SM.zip ebd)) idx stream with
          _ | ⟨stepOut, stream1⟩
        · rw [hsteps] at h
          exact absurd h (by simp)
        · rw [hsteps] at h
          simp only [] at h
          rcases hq : decompressQueries IT SM arity T rest
              (stepOut.map (fun q => q.2)) stream1 with _ | ⟨out', s2'⟩
          · rw [hq] at h
            exact absurd h (by simp)
          · rw [hq] at h
            simp only [Option.some.injEq, Prod.mk.injEq] at h
            obtain ⟨hout, hs2⟩ := h
            have hsteps0 : decompressSteps ((arity.drop 0).zip
                ((SM.drop 0).zip (ebd.drop 0))) (idx >>> sumArityBefore arity 0) stream =
                some (stepOut, stream1) := by
              simpa [sumArityBefore] using hsteps
            obtain ⟨hslen, hrows⟩ := decompressSteps_spec arity.length arity SM idx rfl hSM
              arity.length 0 ebd stream stepOut stream1 (by omega) hebd hsteps0
            simp only [Nat.sub_zero] at hrows
            have hebd1 : ∀ i2, i2 < arity.length →
                (stepOut.map (fun q => q.2)).getD i2 [] = (stepOut.getD i2 default).2 := by
              intro i2 hi2
              exact getD_map_of_lt _ _ i2 (by omega) default []
            have hmono : ∀ i2 < arity.length, ∀ k w,
                List.lookup k (ebd.getD i2 []) = some w →
                List.lookup k ((stepOut.map (fun q => q.2)).getD i2 []) = some w := by
              intro i2 hi2 k w hkw
              rw [hebd1 i2 hi2]
              obtain ⟨st2, v2, _, _, _, h4⟩ := hrows i2 (by omega) (by omega)
              exact h4 k w hkw
            have hemit : emitted IT SM arity (stepOut.map (fun q => q.2)) idx
                (idx, itp, stepOut.map (fun q => q.1)) := by
              refine ⟨rfl, hIT, ?_, ?_⟩
              · intro i2 hi2
                obtain ⟨st2, v2, h1, h2, _, _⟩ := hrows i2 (by omega) (by omega)
                have h1b : List.lookup (shiftedIndex arity i2 idx) (SM.getD i2 [])
                    = some st2 := h1
                have h2b : List.lookup (shiftedIndex arity i2 idx)
                    ((stepOut.map (fun q => q.2)).getD i2 []) = some v2 := by
                  rw [hebd1 i2 hi2]
                  exact h2
                exact ⟨by rw [h1b]; rfl, by rw [h2b]; rfl⟩
              · apply List.ext_getElem
                · simp [hslen]
                · intro i2 hh1 hh2
                  simp only [List.getElem_map, List.getElem_range]
                  have hi2 : i2 < arity.length := by simpa [hslen] using hh1
                  obtain ⟨st2, v2, h1, h2, h3, _⟩ := hrows i2 (by omega) hi2
                  have h1b : List.lookup (shiftedIndex arity i2 idx) (SM.getD i2 [])
                      = some st2 := h1
                  have h2b : List.lookup (shiftedIndex arity i2 idx)
                      ((stepOut.map (fun q => q.2)).getD i2 []) = some v2 := by
                    rw [hebd1 i2 hi2]
                    exact h2
                  unfold canonStepRow
                  rw [h1b, h2b]
                  simp only [Option.getD_some]
                  have hgd := List.getD_eq_getElem stepOut default
                    (show i2 < stepOut.length by omega)
                  rw [← hgd]
                  exact h3
            have hreplay : ∀ rec0, emitted IT SM arity ebd idx rec0 →
                (idx, itp, stepOut.map (fun q => q.1)) = rec0 := by
              intro rec0 hem0
              obtain ⟨e1, e2, e3, e4⟩ := hem0
              have hitp : itp = rec0.2.1 := by
                rw [hIT] at e2
                exact Option.some.inj e2
              have hhit := decompressSteps_all_hit arity.length arity SM idx rfl hSM
                arity.length 0 ebd stream (by omega) hebd
                (fun j _ hj2 => e3 j hj2)
              have hhit2 : decompressSteps (arity.zip (SM.zip ebd)) idx stream =
                  some ((List.range' 0 arity.length).map (fun j =>
                    (canonStepRow SM arity ebd idx j, ebd.getD j [])), stream) := by
                simpa [sumArityBefore] using hhit
              rw [hsteps] at hhit2
              simp only [Option.some.injEq, Prod.mk.injEq] at hhit2
              obtain ⟨hso, _⟩ := hhit2
              have hfst : stepOut.map (fun q => q.1) = rec0.2.2 := by
                rw [hso, List.map_map]
                dsimp only [Function.comp_def]
                rw [← List.range_eq_range']
                exact e4.symm
              rw [hitp, hfst, ← e1]
            obtain ⟨ihlen, ihemit, ihdup⟩ := ih (stepOut.map (fun q => q.2)) stream1
              out' s2' (by rw [List.length_map, hslen]) hq
            refine ⟨?_, ?_, ?_⟩
            · rw [← hout]
              simp [ihlen]
            · intro rec0 idx0 hem0 b hb hbidx
              rcases b with _ | b2
              · simp only [List.getD_cons_zero] at hbidx
                rw [← hout]
                simp only [List.getD_cons_zero]
                subst hbidx
                exact hreplay rec0 hem0
              · rw [← hout]
                simp only [List.getD_cons_succ] at hbidx ⊢
                exact ihemit rec0 idx0
                  (emitted_mono IT SM arity ebd _ idx0 rec0 hem0 hmono) b2
                  (by simpa using hb) hbidx
            · intro a b hab hb heq
              rcases a with _ | a2
              · rcases b with _ | b2
                · omega
                · rw [← hout]
                  simp only [List.getD_cons_zero, List.getD_cons_succ] at heq ⊢
                  exact (ihemit (idx, itp, stepOut.map (fun q => q.1)) idx hemit b2
                    (by simpa using hb) heq.symm).symm
              · rcases b with _ | b2
                · omega
                · rw [← hout]
                  simp only [List.getD_cons_succ] at heq ⊢
                  exact ihdup a2 b2 (by omega) (by simpa using hb) heq
      · rw [if_neg hTc] at h
        exact absurd h (by simp)

end Fri

namespace Fri

theorem lookup_none_key_ne {α : Type} :
    ∀ (m : List (Nat × α)) (k : Nat), List.lookup k m = none → ∀ p ∈ m, p.1 ≠ k := by
  intro m
  induction m with
  | nil =>
    intro k h p hp
    simp at hp
  | cons a t ih =>
    intro k h p hp
    rcases a with ⟨k2, v⟩
    by_cases hbeq : (k == k2) = true
    · rw [List.lookup, hbeq] at h
      simp at h
    · have hbeqf : (k == k2) = false := by simpa using hbeq
      rw [List.lookup, hbeqf] at h
      rcases List.mem_cons.mp hp with hp1 | hp2
      · subst hp1
        have : ¬ k = k2 := by simpa using hbeqf
        simp only []
        omega
      · exact ih k h p hp2

/-- The maps built by `entry(..).or_insert(..)` hold each key at most once. -/
theorem nodup_keys_entryOrInsert_fold {α : Type} (f : Nat → Nat) (g : Nat → α) :
    ∀ n, (((List.range n).foldl (fun m k => entryOrInsert m (f k) (g k)) []).map
      (fun p => p.1)).Nodup := by
  intro n
  induction n with
  | zero => simp
  | succ n ih =>
    rw [List.range_succ, List.foldl_append]
    simp only [List.foldl_cons, List.foldl_nil]
    rw [entryOrInsert_eq]
    by_cases hp : (List.lookup (f n)
        ((List.range n).foldl (fun m k => entryOrInsert m (f k) (g k)) [])).isSome
    · rw [if_pos hp]
      exact ih
    · rw [if_neg hp]
      rw [List.map_append, List.nodup_append]
      refine ⟨ih, by simp, ?_⟩
      intro x hx hx2
      simp only [List.map_cons, List.map_nil, List.mem_cons, List.not_mem_nil, or_false]
        at hx2
      subst hx2
      have hnone : List.lookup (f n)
          ((List.range n).foldl (fun m k => entryOrInsert m (f k) (g k)) []) = none := by
        rcases hl : List.lookup (f n)
            ((List.range n).foldl (fun m k => entryOrInsert m (f k) (g k)) []) with _ | v
        · rfl
        · rw [hl] at hp
          simp at hp
      obtain ⟨p, hpmem, hpfst⟩ := List.mem_map.mp hx
      exact lookup_none_key_ne _ _ hnone p hpmem hpfst

end Fri

namespace Fri

set_option maxHeartbeats 1000000 in
/-- If `decompress_merkle_proofs` acts slot-wise (equal `(leaf, index, proof)`
slots receive equal outputs), two record slots holding identical records are
rebuilt into identical query rounds. -/
theorem rebuildRounds_dup {F MP : Type} [Inhabited F] [Inhabited MP]
    (dmp : List (List F) → List Nat → List MP → Nat → Nat → List MP)
    (D : Nat) (params : FriParams) (T : Nat)
    (records : List (Nat × FriInitialTreeProof F MP × List (Nat × List F × MP)))
    (hdmpExt : ∀ ls is ps h c k k2,
      ls.getD k default = ls.getD k2 default → is.getD k 0 = is.getD k2 0 →
      ps.getD k default = ps.getD k2 default →
      (dmp ls is ps h c).getD k default = (dmp ls is ps h c).getD k2 default)
    (k k2 : Nat) (hk : k < records.length) (hk2 : k2 < records.length)
    (heq : records.getD k default = records.getD k2 default) :
    (rebuildRounds dmp D params T records).getD k default =
      (rebuildRounds dmp D params T records).getD k2 default := by
  unfold rebuildRounds
  rw [getD_map_of_lt _ _ k (by simpa using hk) 0,
    getD_map_of_lt _ _ k2 (by simpa using hk2) 0]
  rw [List.getD_eq_getElem (List.range _) _ (by simpa using hk),
    List.getD_eq_getElem (List.range _) _ (by simpa using hk2)]
  simp only [List.getElem_range]
  have hleaves : ∀ t, (initialLeavesRowD records t).getD k default =
      (initialLeavesRowD records t).getD k2 default := by
    intro t
    unfold initialLeavesRowD
    rw [getD_map_of_lt _ _ k hk default, getD_map_of_lt _ _ k2 hk2 default, heq]
  have hiproofs : ∀ t, (initialProofsRowD records t).getD k default =
      (initialProofsRowD records t).getD k2 default := by
    intro t
    unfold initialProofsRowD
    rw [getD_map_of_lt _ _ k hk default, getD_map_of_lt _ _ k2 hk2 default, heq]
  have hfst : (records.map (fun r => r.1)).getD k 0 =
      (records.map (fun r => r.1)).getD k2 0 := by
    rw [getD_map_of_lt _ _ k hk default, getD_map_of_lt _ _ k2 hk2 default, heq]
  have hskeys : ∀ i, (stepKeysRowD records i).getD k 0 =
      (stepKeysRowD records i).getD k2 0 := by
    intro i
    unfold stepKeysRowD
    rw [getD_map_of_lt _ _ k hk default, getD_map_of_lt _ _ k2 hk2 default, heq]
  have hsevals : ∀ i, (stepEvalsRowD records i).getD k default =
      (stepEvalsRowD records i).getD k2 default := by
    intro i
    unfold stepEvalsRowD
    rw [getD_map_of_lt _ _ k hk default, getD_map_of_lt _ _ k2 hk2 default, heq]
  have hsproofs : ∀ i, (stepProofsRowD records i).getD k default =
      (stepProofsRowD records i).getD k2 default := by
    intro i
    unfold stepProofsRowD
    rw [getD_map_of_lt _ _ k hk default, getD_map_of_lt _ _ k2 hk2 default, heq]
  congr 1
  · congr 1
    apply List.map_congr_left
    intro t _
    rw [hleaves t]
    congr 1
    unfold decompressedInitialRow
    exact hdmpExt _ _ _ _ _ k k2 (hleaves t) hfst (hiproofs t)
  · apply List.map_congr_left
    intro i _
    rw [hsevals i]
    congr 1
    unfold decompressedStepsRow
    exact hdmpExt _ _ _ _ _ k k2 (hsevals i) (hskeys i) (hsproofs i)

end Fri

namespace Fri

set_option maxHeartbeats 1000000 in
/-- C7: the compressed artifact keeps the ordered `indices` vector verbatim
(duplicates included); `initial_trees_proofs` is keyed by the untransformed
original index and `steps[j]` by the original index right-shifted by
`reduction_arity_bits[0..=j]`; every lookup resolves to the record packed for
the first query position bearing that key (first writer wins) and each key is
stored exactly once; and — provided `decompress_merkle_proofs` acts slot-wise
— positions with duplicate query indices decompress to identical query
rounds. -/
theorem compressed_map_keys {F MP Cap PolyC : Type} [Inhabited F] [Inhabited MP]
    (cmp : Nat → List Nat → List MP → List MP)
    (dmp : List (List F) → List Nat → List MP → Nat → Nat → List MP)
    (D : Nat) (proof : FriProof F MP Cap PolyC) (indices : List Nat) (params : FriParams)
    (hdmpExt : ∀ ls is ps h c k k2,
      ls.getD k default = ls.getD k2 default → is.getD k 0 = is.getD k2 0 →
      ps.getD k default = ps.getD k2 default →
      (dmp ls is ps h c).getD k default = (dmp ls is ps h c).getD k2 default) :
    (∀ C, compress cmp proof indices params = some C →
      C.query_round_proofs.indices = indices) ∧
    (∀ x, List.lookup x (initialMap cmp proof indices params) =
      ((List.range indices.length).find? (fun k => indices.getD k 0 == x)).map
        (fun k => initialRecordAt cmp proof indices params k)) ∧
    (∀ j x, List.lookup x (stepsMapAt cmp proof indices params j) =
      ((List.range indices.length).find? (fun k =>
          shiftedIndex params.reduction_arity_bits j (indices.getD k 0) == x)).map
        (fun k => stepRecordAt cmp proof indices params j k)) ∧
    ((initialMap cmp proof indices params).map (fun p => p.1)).Nodup ∧
    (∀ j, ((stepsMapAt cmp proof indices params j).map (fun p => p.1)).Nodup) ∧
    (∀ C P' ch stream k k2, compress cmp proof indices params = some C →
      decompress dmp D C ch stream params = some P' →
      k < ch.fri_query_indices.length → k2 < ch.fri_query_indices.length →
      ch.fri_query_indices.getD k 0 = ch.fri_query_indices.getD k2 0 →
      P'.query_round_proofs.getD k default = P'.query_round_proofs.getD k2 default) := by
  refine ⟨?_, ?_, ?_, ?_, ?_, ?_⟩
  · intro C hC
    rw [compress] at hC
    by_cases hok : compressOk proof indices params
    · rw [if_pos hok] at hC
      have hCeq := Option.some.inj hC
      rw [← hCeq]
    · rw [if_neg hok] at hC
      exact absurd hC (by simp)
  · intro x
    unfold initialMap
    rw [lookup_entryOrInsert_fold]
  · intro j x
    unfold stepsMapAt
    rw [lookup_entryOrInsert_fold]
  · exact nodup_keys_entryOrInsert_fold _ _ _
  · intro j
    exact nodup_keys_entryOrInsert_fold _ _ _
  · intro C P' ch stream k k2 hC hDec hk hk2 heq
    rw [compress] at hC
    by_cases hok : compressOk proof indices params
    · rw [if_pos hok] at hC
      have hCeq := Option.some.inj hC
      subst hCeq
      rw [decompress] at hDec
      rcases hIM : initialMap cmp proof indices params with _ | ⟨e0, tl⟩
      · rw [hIM] at hDec
        exact absurd hDec (by simp)
      · rw [hIM] at hDec
        simp only [] at hDec
        by_cases hR : params.reduction_arity_bits.length ≤
            ((List.range params.reduction_arity_bits.length).map
              (stepsMapAt cmp proof indices params)).length
        · rw [if_pos hR] at hDec
          rw [List.take_of_length_le (by simp)] at hDec
          rcases hq : decompressQueries (e0 :: tl)
              ((List.range params.reduction_arity_bits.length).map
                (stepsMapAt cmp proof indices params))
              params.reduction_arity_bits e0.2.evals_proofs.length
              ch.fri_query_indices
              (List.replicate params.reduction_arity_bits.length [])
              stream with _ | ⟨records, s2⟩
          · rw [hq] at hDec
            exact absurd hDec (by simp)
          · rw [hq] at hDec
            simp only [Option.some.injEq] at hDec
            subst hDec
            obtain ⟨hlen', hemit', hdup'⟩ := decompressQueries_dup (e0 :: tl)
              ((List.range params.reduction_arity_bits.length).map
                (stepsMapAt cmp proof indices params))
              params.reduction_arity_bits e0.2.evals_proofs.length (by simp)
              ch.fri_query_indices
              (List.replicate params.reduction_arity_bits.length [])
              stream records s2 (by simp) hq
            show (rebuildRounds dmp D params e0.2.evals_proofs.length records).getD k
                default = _
            rcases Nat.lt_trichotomy k k2 with hlt | hek | hgt
            · exact rebuildRounds_dup dmp D params _ records hdmpExt k k2
                (by omega) (by omega) (hdup' k k2 hlt (by omega) heq)
            · rw [hek]
            · exact (rebuildRounds_dup dmp D params _ records hdmpExt k2 k
                (by omega) (by omega) (hdup' k2 k hgt (by omega) heq.symm)).symm
        · rw [if_neg hR] at hDec
          exact absurd hDec (by simp)
    · rw [if_neg hok] at hC
      exact absurd hC (by simp)

end Fri

namespace Fri

/-- Witness for `compressed_map_keys`: identity Merkle-path collaborators on
the concrete two-query proof, instantiating the unique-key conjuncts. -/
theorem compressed_map_keys_witness :
    ((initialMap (fun (_ : Nat) (_ : List Nat) (ps : List Nat) => ps) exProofC1 [0, 1]
      exParamsC1).map (fun p => p.1)).Nodup ∧
    (∀ j, ((stepsMapAt (fun (_ : Nat) (_ : List Nat) (ps : List Nat) => ps) exProofC1 [0, 1]
      exParamsC1 j).map (fun p => p.1)).Nodup) :=
  ⟨(compressed_map_keys (fun _ _ ps => ps) (fun _ _ ps _ _ => ps) 1 exProofC1 [0, 1]
      exParamsC1 (fun _ _ _ _ _ _ _ _ _ h3 => h3)).2.2.2.1,
    (compressed_map_keys (fun _ _ ps => ps) (fun _ _ ps _ _ => ps) 1 exProofC1 [0, 1]
      exParamsC1 (fun _ _ _ _ _ _ _ _ _ h3 => h3)).2.2.2.2.1⟩

end Fri

namespace Fri

/-- C8: assuming each step at depth `i` holds exactly `2^arity_bits[i]`
evaluations, compression removes precisely the evaluation at
`cw = index mod 2^arity_bits[i]` (`index` the running query index before the
shift at depth `i`), so each stored step has `2^arity_bits[i] − 1`
evaluations; re-inserting the removed (inferable) element at the same `cw` —
which is what the decompression walk does for a first-sighted key — restores
the full coset. -/
theorem eval_removal_and_reinsertion {F MP Cap PolyC : Type} [Inhabited F] [Inhabited MP]
    (cmp : Nat → List Nat → List MP → List MP) (proof : FriProof F MP Cap PolyC)
    (indices : List Nat) (params : FriParams) (D : Nat)
    (hwf : wellFormed proof indices params D)
    (i k : Nat) (hk : k < indices.length) (hi : i < params.reduction_arity_bits.length) :
    cosetIndex params.reduction_arity_bits i (indices.getD k 0) =
      (indices.getD k 0 >>> sumArityBefore params.reduction_arity_bits i) %
        2 ^ params.reduction_arity_bits.getD i 0 ∧
    (stepRecordAt cmp proof indices params i k).evals =
      (stepEvalsAt proof indices k i).eraseIdx
        (cosetIndex params.reduction_arity_bits i (indices.getD k 0)) ∧
    (stepRecordAt cmp proof indices params i k).evals.length =
      2 ^ params.reduction_arity_bits.getD i 0 - 1 ∧
    (stepRecordAt cmp proof indices params i k).evals.insertIdx
        (cosetIndex params.reduction_arity_bits i (indices.getD k 0))
        (inferElemAt proof indices params.reduction_arity_bits k i) =
      stepEvalsAt proof indices k i := by
  obtain ⟨hlen, hwf2⟩ := hwf
  have hzk : k < (zippedQueries proof indices).length := by
    rw [zippedQueries_length proof indices hlen]
    omega
  obtain ⟨hel, _⟩ := (hwf2 k hk).2.2 i hi
  have hcw : cosetIndex params.reduction_arity_bits i (indices.getD k 0) <
      (stepEvalsAt proof indices k i).length := by
    rw [hel]
    exact Nat.mod_lt _ (Nat.pos_pow_of_pos _ (by omega))
  refine ⟨rfl, stepRecordAt_evals cmp proof indices params i k hzk, ?_, ?_⟩
  · rw [stepRecordAt_evals cmp proof indices params i k hzk]
    rw [List.length_eraseIdx, if_pos hcw, hel]
  · rw [stepRecordAt_evals cmp proof indices params i k hzk]
    rw [show inferElemAt proof indices params.reduction_arity_bits k i =
        (stepEvalsAt proof indices k i).getD
          (cosetIndex params.reduction_arity_bits i (indices.getD k 0)) [] from ?_]
    · exact insertIdx_eraseIdx_getD _ _ hcw []
    · unfold inferElemAt
      rw [queryAt_fst proof indices k hzk]

/-- Witness for `eval_removal_and_reinsertion` at the concrete two-query
proof, depth `0`, query position `1`. -/
theorem eval_removal_and_reinsertion_witness :
    cosetIndex exParamsC1.reduction_arity_bits 0 ([0, 1].getD 1 0) =
      ([0, 1].getD 1 0 >>> sumArityBefore exParamsC1.reduction_arity_bits 0) %
        2 ^ exParamsC1.reduction_arity_bits.getD 0 0 ∧
    (stepRecordAt (fun (_ : Nat) (_ : List Nat) (ps : List Nat) => ps) exProofC1 [0, 1]
        exParamsC1 0 1).evals =
      (stepEvalsAt exProofC1 [0, 1] 1 0).eraseIdx
        (cosetIndex exParamsC1.reduction_arity_bits 0 ([0, 1].getD 1 0)) ∧
    (stepRecordAt (fun (_ : Nat) (_ : List Nat) (ps : List Nat) => ps) exProofC1 [0, 1]
        exParamsC1 0 1).evals.length =
      2 ^ exParamsC1.reduction_arity_bits.getD 0 0 - 1 ∧
    (stepRecordAt (fun (_ : Nat) (_ : List Nat) (ps : List Nat) => ps) exProofC1 [0, 1]
        exParamsC1 0 1).evals.insertIdx
        (cosetIndex exParamsC1.reduction_arity_bits 0 ([0, 1].getD 1 0))
        (inferElemAt exProofC1 [0, 1] exParamsC1.reduction_arity_bits 1 0) =
      stepEvalsAt exProofC1 [0, 1] 1 0 :=
  eval_removal_and_reinsertion (fun _ _ ps => ps) exProofC1 [0, 1] exParamsC1 1
    (by decide) 0 1 (by decide) (by decide)

end Fri

namespace Fri

/-- A successful decompression walk resolved every queried index in
`initial_trees_proofs` with the expected oracle count, and produced exactly
one record per queried index. -/
theorem decompressQueries_lookups {F MP : Type} [Inhabited F] [Inhabited MP]
    (IT : List (Nat × FriInitialTreeProof F MP)) (SM : List (List (Nat × FriQueryStep F MP)))
    (arity : List Nat) (T : Nat) :
    ∀ (idxs : List Nat) (ebd : List (List (Nat × List (List F)))) (stream : List (List F))
      out stream2,
      decompressQueries IT SM arity T idxs ebd stream = some (out, stream2) →
      out.length = idxs.length ∧
      ∀ b < idxs.length, ∃ itp, List.lookup (idxs.getD b 0) IT = some itp ∧
        itp.evals_proofs.length = T := by
  intro idxs
  induction idxs with
  | nil =>
    intro ebd stream out stream2 h
    rw [decompressQueries] at h
    simp only [Option.some.injEq, Prod.mk.injEq] at h
    obtain ⟨h1, _⟩ := h
    refine ⟨by rw [← h1]; rfl, ?_⟩
    intro b hb
    simp at hb
  | cons idx rest ih =>
    intro ebd stream out stream2 h
    rw [decompressQueries] at h
    rcases hIT : List.lookup idx IT with _ | itp
    · rw [hIT] at h
      exact absurd h (by simp)
    · rw [hIT] at h
      simp only [] at h
      by_cases hTc : itp.evals_proofs.length = T
      · rw [if_pos hTc] at h
        rcases hsteps : decompressSteps (arity.zip (SM.zip ebd)) idx stream with
          _ | ⟨stepOut, stream1⟩
        · rw [hsteps] at h
          exact absurd h (by simp)
        · rw [hsteps] at h
          simp only [] at h
          rcases hq : decompressQueries IT SM arity T rest
              (stepOut.map (fun q => q.2)) stream1 with _ | ⟨out', s2'⟩
          · rw [hq] at h
            exact absurd h (by simp)
          · rw [hq] at h
            simp only [Option.some.injEq, Prod.mk.injEq] at h
            obtain ⟨hout, _⟩ := h
            obtain ⟨ihlen, ihlook⟩ := ih _ _ _ _ hq
            refine ⟨by rw [← hout]; simp [ihlen], ?_⟩
            intro b hb
            rcases b with _ | b2
            · exact ⟨itp, hIT, hTc⟩
            · simp only [List.getD_cons_succ]
              exact ihlook b2 (by simpa using hb)
      · rw [if_neg hTc] at h
        exact absurd h (by simp)

set_option maxHeartbeats 1000000 in
/-- C3: every malformed-input condition is fatal and surfaces as the single
failure value: an empty `initial_trees_proofs` map, fewer `steps` maps than
reduction depths, a queried index whose `initial_trees_proofs` entry is
missing or disagrees with the reference oracle count, a `steps[i]` lookup
miss, and a depleted inferred-element stream at a first-sighted key; a
successful decompression is never partial — it holds one reconstructed query
round per queried index. -/
theorem decompress_malformed {F MP Cap PolyC : Type} [Inhabited F] [Inhabited MP]
    (dmp : List (List F) → List Nat → List MP → Nat → Nat → List MP) (D : Nat)
    (cproof : CompressedFriProof F MP Cap PolyC) (ch : FriChallenges)
    (stream : List (List F)) (params : FriParams) :
    (cproof.query_round_proofs.initial_trees_proofs = [] →
      decompress dmp D cproof ch stream params = none) ∧
    (cproof.query_round_proofs.steps.length < params.reduction_arity_bits.length →
      decompress dmp D cproof ch stream params = none) ∧
    (∀ e0 tl b, cproof.query_round_proofs.initial_trees_proofs = e0 :: tl →
      b < ch.fri_query_indices.length →
      (∀ itp, List.lookup (ch.fri_query_indices.getD b 0) (e0 :: tl) = some itp →
        itp.evals_proofs.length ≠ e0.2.evals_proofs.length) →
      decompress dmp D cproof ch stream params = none) ∧
    (∀ (aB : Nat) (M : List (Nat × FriQueryStep F MP)) (E : List (Nat × List (List F)))
        rest idx s, List.lookup (idx >>> aB) M = none →
      decompressSteps ((aB, M, E) :: rest) idx s = none) ∧
    (∀ (aB : Nat) (M : List (Nat × FriQueryStep F MP)) (E : List (Nat × List (List F)))
        rest idx st, List.lookup (idx >>> aB) M = some st →
      List.lookup (idx >>> aB) E = none →
      decompressSteps ((aB, M, E) :: rest) idx [] = none) ∧
    (∀ P', decompress dmp D cproof ch stream params = some P' →
      P'.query_round_proofs.length = ch.fri_query_indices.length) := by
  refine ⟨?_, ?_, ?_, ?_, ?_, ?_⟩
  · intro h
    rw [decompress, h]
  · intro h
    rcases hI : cproof.query_round_proofs.initial_trees_proofs with _ | ⟨e0, tl⟩
    · rw [decompress, hI]
    · rw [decompress, hI]
      simp only []
      rw [if_neg (by omega)]
  · intro e0 tl b hI hb hbad
    rcases hd : decompress dmp D cproof ch stream params with _ | P'
    · rfl
    · exfalso
      rw [decompress, hI] at hd
      simp only [] at hd
      by_cases hR : params.reduction_arity_bits.length ≤
          cproof.query_round_proofs.steps.length
      · rw [if_pos hR] at hd
        rcases hq : decompressQueries (e0 :: tl)
            (cproof.query_round_proofs.steps.take params.reduction_arity_bits.length)
            params.reduction_arity_bits e0.2.evals_proofs.length
            ch.fri_query_indices
            (List.replicate params.reduction_arity_bits.length []) stream with
          _ | ⟨records, s2⟩
        · rw [hq] at hd
          exact absurd hd (by simp)
        · obtain ⟨_, hlook⟩ := decompressQueries_lookups (e0 :: tl) _
            params.reduction_arity_bits e0.2.evals_proofs.length
            ch.fri_query_indices _ _ _ _ hq
          obtain ⟨itp, hitp, hTc⟩ := hlook b hb
          exact hbad itp hitp hTc
      · rw [if_neg hR] at hd
        exact absurd hd (by simp)
  · intro aB M E rest idx s h
    rw [decompressSteps, h]
  · intro aB M E rest idx st h1 h2
    rw [decompressSteps, h1, h2]
  · intro P' hd
    rcases hI : cproof.query_round_proofs.initial_trees_proofs with _ | ⟨e0, tl⟩
    · rw [decompress, hI] at hd
      exact absurd hd (by simp)
    · rw [decompress, hI] at hd
      simp only [] at hd
      by_cases hR : params.reduction_arity_bits.length ≤
          cproof.query_round_proofs.steps.length
      · rw [if_pos hR] at hd
        rcases hq : decompressQueries (e0 :: tl)
            (cproof.query_round_proofs.steps.take params.reduction_arity_bits.length)
            params.reduction_arity_bits e0.2.evals_proofs.length
            ch.fri_query_indices
            (List.replicate params.reduction_arity_bits.length []) stream with
          _ | ⟨records, s2⟩
        · rw [hq] at hd
          exact absurd hd (by simp)
        · rw [hq] at hd
          simp only [Option.some.injEq] at hd
          obtain ⟨hlen, _⟩ := decompressQueries_lookups (e0 :: tl) _
            params.reduction_arity_bits e0.2.evals_proofs.length
            ch.fri_query_indices _ _ _ _ hq
          rw [← hd]
          simpa [rebuildRounds] using hlen
      · rw [if_neg hR] at hd
        exact absurd hd (by simp)

end Fri

namespace Fri

/-- Witness for `decompress_malformed`: an empty `initial_trees_proofs` map
makes `decompress` fail, and a missing `steps` entry makes the walk fail. -/
theorem decompress_malformed_witness :
    decompress (fun (_ : List (List Nat)) (_ : List Nat) (ps : List Nat) (_ _ : Nat) => ps)
      1 (⟨[0], ⟨[], [], []⟩, 0, 0⟩ : CompressedFriProof Nat Nat Nat Nat) ⟨[]⟩ [] exParamsC1
      = none ∧
    decompressSteps (((1 : Nat), ([] : List (Nat × FriQueryStep Nat Nat)),
      ([] : List (Nat × List (List Nat)))) :: []) 0 [[1]] = none :=
  ⟨(decompress_malformed (fun _ _ ps _ _ => ps) 1 ⟨[0], ⟨[], [], []⟩, 0, 0⟩ ⟨[]⟩ []
      exParamsC1).1 rfl,
    (decompress_malformed (fun _ _ ps _ _ => ps) 1 ⟨[0], ⟨[], [], []⟩, 0, 0⟩ ⟨[]⟩ []
      exParamsC1).2.2.2.1 1 [] [] [] 0 [[1]] rfl⟩

end Fri
